import Mathlib

/-!
Verification development for the per-runtime storage sync worker
(`go/worker/storage/committee/node.go`): the block-follower state machine
with its round-ordered fetch/apply/finalize pipeline.

The Go code is shallowly embedded:
* `uint64` rounds become `Nat`; where the source relies on two's-complement
  wraparound (the `^uint64(0)` sentinel, `genesisRound - 1`, `round++` on
  the sentinel) the arithmetic is done explicitly modulo `2^64`;
* hashes, namespaces and write-log entries are opaque `Nat` payloads;
* the `outstandingMask` bitmask over {IO, STATE} becomes a pair of `Bool`s;
* the follower goroutine becomes an executable step function over an
  explicit state, with concurrency (fetcher pool, detached finalizer,
  channel selects) resolved by an externally chosen event list.
-/

/-- Width of the `uint64` round space. -/
def U64 : Nat := 2 ^ 64

/-- `hash.Hash`, abstracted to a number; `0` stands for the empty hash
(`Hash.Empty()`). -/
abbrev HashV := Nat

/-- The empty hash produced by `Hash.Empty()` / `Root.Hash.Empty()`. -/
def emptyHash : HashV := 0

/-- `urkelNode.Root { Namespace, Round, Hash }`. -/
structure Root where
  ns : Nat
  round : Nat
  hash : HashV
deriving DecidableEq, Repr

/-- `blockSummary { Namespace, Round, IORoot, StateRoot }`, the persistable
short summary of a block (also standing in for the block header itself,
which is only ever read through these fields). -/
structure blockSummary where
  ns : Nat
  round : Nat
  ioRoot : Root
  stateRoot : Root
deriving DecidableEq, Repr

/-- `outstandingMask`: which of the two storage roots (IO, state) a record
refers to.  The Go code uses a `uint` bitmask with bits `0x1` (IO) and
`0x2` (state); we embed it as the pair of those two bits. -/
structure outstandingMask where
  io : Bool
  st : Bool
deriving DecidableEq, Repr

def maskNone : outstandingMask := ⟨false, false⟩
def maskIO : outstandingMask := ⟨true, false⟩
def maskState : outstandingMask := ⟨false, true⟩
def maskAll : outstandingMask := ⟨true, true⟩

/-- `m.bit b` reads one bit of the mask (`true` = IO bit, `false` = state
bit). -/
def outstandingMask.bit (m : outstandingMask) (b : Bool) : Bool :=
  if b then m.io else m.st

/-- `a |= b` on masks. -/
def outstandingMask.or (a b : outstandingMask) : outstandingMask :=
  ⟨a.io || b.io, a.st || b.st⟩

/-- `a &= ^b` on masks. -/
def outstandingMask.andNot (a b : outstandingMask) : outstandingMask :=
  ⟨a.io && !b.io, a.st && !b.st⟩

/-- `a & b` on masks. -/
def outstandingMask.inter (a b : outstandingMask) : outstandingMask :=
  ⟨a.io && b.io, a.st && b.st⟩

/-- `fetchedDiff`: everything a single `GetDiff` fetch produced, as sent
back on `diffCh`.  Write-log entries are opaque payloads; `err` is an
optional opaque error. -/
structure fetchedDiff where
  fetchMask : outstandingMask
  fetched : Bool
  err : Option Nat
  round : Nat
  prevRoot : Root
  thisRoot : Root
  writeLog : List Nat
deriving DecidableEq, Repr

/-- `inFlight`: per-round mask bookkeeping owned by the follower loop. -/
structure inFlight where
  outstanding : outstandingMask
  awaitingRetry : outstandingMask
deriving DecidableEq, Repr

/-! ## Association-list embedding of the Go maps -/

/-- Lookup in a `map[uint64]T` embedded as an association list. -/
def alookup {α : Type} (l : List (Nat × α)) (k : Nat) : Option α :=
  (l.find? (fun p => p.1 == k)).map (·.2)

/-- `m[k] = v` on the embedded map. -/
def ainsert {α : Type} (l : List (Nat × α)) (k : Nat) (v : α) : List (Nat × α) :=
  (k, v) :: l.filter (fun p => p.1 != k)

/-- `delete(m, k)` on the embedded map. -/
def aerase {α : Type} (l : List (Nat × α)) (k : Nat) : List (Nat × α) :=
  l.filter (fun p => p.1 != k)

theorem alookup_ainsert_self {α : Type} (l : List (Nat × α)) (k : Nat) (v : α) :
    alookup (ainsert l k v) k = some v := by
  simp [alookup, ainsert, List.find?]

theorem alookup_filter_ne {α : Type} (l : List (Nat × α)) (k k' : Nat) (h : k' ≠ k) :
    alookup (l.filter (fun p => p.1 != k)) k' = alookup l k' := by
  induction l with
  | nil => rfl
  | cons p t ih =>
    by_cases hp : p.1 = k
    · have : (p.1 != k) = false := by simp [hp]
      simp only [List.filter, this]
      rw [ih]
      have : (p.1 == k') = false := by
        simp [hp]
        omega
      simp [alookup, List.find?, this]
    · have : (p.1 != k) = true := by simp [hp]
      simp only [List.filter, this]
      by_cases hq : p.1 = k'
      · simp [alookup, List.find?, hq]
      · have h1 : (p.1 == k') = false := by simp [hq]
        simp only [alookup, List.find?, h1]
        exact ih

theorem alookup_ainsert_ne {α : Type} (l : List (Nat × α)) (k k' : Nat) (v : α)
    (h : k' ≠ k) : alookup (ainsert l k v) k' = alookup l k' := by
  have h1 : (k == k') = false := by
    simp
    omega
  simp only [ainsert, alookup, List.find?, h1]
  exact alookup_filter_ne l k k' h

theorem alookup_aerase_self {α : Type} (l : List (Nat × α)) (k : Nat) :
    alookup (aerase l k) k = none := by
  induction l with
  | nil => rfl
  | cons p t ih =>
    by_cases hp : p.1 = k
    · have : (p.1 != k) = false := by simp [hp]
      simpa [aerase, List.filter, this] using ih
    · have h1 : (p.1 != k) = true := by simp [hp]
      have h2 : (p.1 == k) = false := by simp [hp]
      simp only [aerase, List.filter, h1, alookup, List.find?, h2]
      exact ih

theorem alookup_aerase_ne {α : Type} (l : List (Nat × α)) (k k' : Nat)
    (h : k' ≠ k) : alookup (aerase l k) k' = alookup l k' :=
  alookup_filter_ne l k k' h

theorem alookup_mem {α : Type} {l : List (Nat × α)} {k : Nat} {v : α}
    (h : alookup l k = some v) : (k, v) ∈ l := by
  induction l with
  | nil => simp [alookup] at h
  | cons p t ih =>
    by_cases hp : p.1 = k
    · have h1 : (p.1 == k) = true := by simp [hp]
      simp only [alookup, List.find?, h1] at h
      have hv : p.2 = v := by
        simpa using h
      have : p = (k, v) := by
        cases p with
        | mk a b =>
          simp at hp hv
          simp [hp, hv]
      rw [← this]
      exact List.mem_cons_self p t
    · have h2 : (p.1 == k) = false := by simp [hp]
      simp only [alookup, List.find?, h2] at h
      right
      exact ih h

theorem mem_ainsert {α : Type} {l : List (Nat × α)} {k : Nat} {v : α} {p : Nat × α}
    (h : p ∈ ainsert l k v) : p = (k, v) ∨ p ∈ l := by
  simp only [ainsert, List.mem_cons] at h
  rcases h with h | h
  · exact Or.inl h
  · exact Or.inr (List.mem_of_mem_filter h)

theorem mem_aerase {α : Type} {l : List (Nat × α)} {k : Nat} {p : Nat × α}
    (h : p ∈ aerase l k) : p ∈ l :=
  List.mem_of_mem_filter h

/-! ## Startup arithmetic (`NewNode`, worker initialization)

`defaultUndefinedRound = ^uint64(0)` is the persisted-state default;
`n.undefinedRound = genesisBlock.Header.Round - 1` is the working sentinel,
computed in `uint64` arithmetic (so genesis round 0 gives the all-ones
value).  The worker then clamps the loaded last-synced round. -/

/-- `defaultUndefinedRound = ^uint64(0)`. -/
def defaultUndefinedRound : Nat := U64 - 1

/-- `RoundLatest = math.MaxUint64`. -/
def RoundLatest : Nat := U64 - 1

/-- `n.undefinedRound = genesisBlock.Header.Round - 1` in `uint64`
arithmetic. -/
def initUndefinedRound (genesisRound : Nat) : Nat :=
  (genesisRound + U64 - 1) % U64

/-- The initial `cachedLastRound` computed by `worker()`:
the loaded `syncedState.LastBlock.Round`, clamped to the working sentinel
when it is the persisted default or precedes the genesis round. -/
def initCachedLastRound (persisted genesisRound : Nat) : Nat :=
  if persisted = defaultUndefinedRound ∨ persisted < genesisRound then
    initUndefinedRound genesisRound
  else persisted

/-- `startSummaryRound` as computed when handling a new block: start from
`cachedLastRound`, bumped once (in `uint64` arithmetic) when it is the
undefined-round sentinel. -/
def startSummaryRound (undefinedRound cachedLastRound : Nat) : Nat :=
  if cachedLastRound = undefinedRound then (cachedLastRound + 1) % U64
  else cachedLastRound

/-- The rounds visited by `for i := startSummaryRound; i < blkRound; i++`
(no `uint64` wrap can occur inside this loop since `i < blkRound` bounds
every iterate). -/
def catchUpRounds (start blkRound : Nat) : List Nat :=
  List.range' start (blkRound - start)

/-! ## The diff fetcher (`fetchDiff`)

One parallel task per `(round, prevRoot, thisRoot, mask)`.  The remote
streaming iterator (`GetDiff` + `Next/Value`) is embedded as an
`Except err (List (Except err chunk))`: either obtaining the iterator
fails, or it yields a sequence of steps each of which is a chunk or a
streaming error. -/

structure fetchEnv where
  hasRoot : Root → Bool
  getDiff : Root → Root → Except Nat (List (Except Nat Nat))

/-- Consuming the iterator to exhaustion: collect chunks in order, stop at
the first `Next`/`Value` error. -/
def consumeDiff : List (Except Nat Nat) → List Nat × Option Nat
  | [] => ([], none)
  | (Except.error e) :: _ => ([], some e)
  | (Except.ok c) :: rest =>
    let r := consumeDiff rest
    (c :: r.1, r.2)

/-- Result of one `fetchDiff` invocation: the diffs delivered on `diffCh`
(the `defer` guarantees exactly one on every exit path, which the
translation realizes by returning the single result it constructs), and
how many remote `GetDiff` calls were made. -/
structure fetchDiffOutcome where
  sent : List fetchedDiff
  remoteCalls : Nat
deriving Repr

/-- `fetchDiff(round, prevRoot, thisRoot, fetchMask)`. -/
def fetchDiff (env : fetchEnv) (round : Nat) (prevRoot thisRoot : Root)
    (fetchMask : outstandingMask) : fetchDiffOutcome :=
  let base : fetchedDiff :=
    { fetchMask := fetchMask, fetched := false, err := none, round := round,
      prevRoot := prevRoot, thisRoot := thisRoot, writeLog := [] }
  if env.hasRoot thisRoot then
    { sent := [base], remoteCalls := 0 }
  else if thisRoot.hash = prevRoot.hash then
    -- root unchanged across the round: still apply an empty write log
    { sent := [{ base with fetched := true, writeLog := [] }], remoteCalls := 0 }
  else
    match env.getDiff prevRoot thisRoot with
    | Except.error e =>
      { sent := [{ base with fetched := true, err := some e }], remoteCalls := 1 }
    | Except.ok steps =>
      let r := consumeDiff steps
      { sent := [{ base with fetched := true, writeLog := r.1, err := r.2 }],
        remoteCalls := 1 }

/-! ## `ForceFinalize` -/

/-- The roothash lookups `ForceFinalize` can perform. -/
structure roothashEnv where
  getLatestBlock : Except Nat blockSummary
  getBlock : Nat → Except Nat blockSummary

/-- A call into `localStorage.Finalize(ns, round, roots)`. -/
structure finalizeCall where
  ns : Nat
  round : Nat
  roots : List HashV
deriving DecidableEq, Repr

/-- `ForceFinalize(runtimeID, round)`: look the block up (latest when
`round == RoundLatest`), propagate a lookup error without touching local
storage, otherwise invoke `localStorage.Finalize` once; the value returned
describes that single call. -/
def ForceFinalize (env : roothashEnv) (round : Nat) : Except Nat finalizeCall :=
  match (if round = RoundLatest then env.getLatestBlock else env.getBlock round) with
  | Except.error e => Except.error e
  | Except.ok blk =>
    Except.ok { ns := blk.ns, round := round,
                roots := [blk.ioRoot.hash, blk.stateRoot.hash] }

/-! ## The follower loop (`worker()`)

The follower goroutine owns `cachedLastRound`, `lastFullyAppliedRound`,
the two out-of-order priority queues, `syncingRounds` and `hashCache`.
Its interaction with the environment — the infinite new-block channel,
the fetcher pool feeding `diffCh`, the detached finalizer feeding the
unbuffered `finalizeCh` — is resolved by an event list: each event picks
one of the loop's enabled actions and fixes every nondeterministic choice
(which pool task finishes, what the fetch produced, whether the local
`Apply` errored).

The drain-before-wait discipline of the loop is kept: popping the diffs
queue has priority over popping the applieds queue, and channel events
fire only when neither queue is ready.  The Go heaps pop an arbitrary
minimal-round element (no stability guarantee), which the pop events model
by an explicit split of the queue list at a minimal element. -/

/-- One task handed to `fetchPool.Submit`: the arguments of the
`fetchDiff` call it will perform. -/
structure fetchTask where
  round : Nat
  prevRoot : Root
  thisRoot : Root
  mask : outstandingMask
deriving DecidableEq, Repr

/-- Observable calls of a run, in program order: `localStorage.Apply`
invocations, completion of a round's applies (`lastFullyAppliedRound`
advance), the spawn of a finalizer task, and the receipt of its completion
on `finalizeCh`. -/
inductive TEv where
  | applyCall (round : Nat) (mask : outstandingMask) (ok : Bool)
  | roundDone (round : Nat)
  | finSpawn (round : Nat)
  | finComplete (round : Nat)
deriving DecidableEq, Repr

/-- The follower loop's state (`worker()` locals), extended with the
in-flight fetcher tasks, the in-flight finalizer tasks and the trace of
observable calls. -/
structure St where
  cachedLastRound : Nat
  lastFullyAppliedRound : Nat
  outOfOrderDiffs : List fetchedDiff
  outOfOrderApplieds : List blockSummary
  syncingRounds : List (Nat × inFlight)
  hashCache : List (Nat × blockSummary)
  fetchers : List fetchTask
  finalizers : List blockSummary
  trace : List TEv
deriving Repr

/-- The guard of the apply-drain branch: the diffs queue is nonempty and
its minimal round is `lastFullyAppliedRound + 1`. -/
def canPopDiffs (s : St) : Prop :=
  (∃ d ∈ s.outOfOrderDiffs, d.round = s.lastFullyAppliedRound + 1) ∧
    ∀ d ∈ s.outOfOrderDiffs, s.lastFullyAppliedRound + 1 ≤ d.round

/-- The guard of the finalize-drain branch: the applieds queue is nonempty
and its minimal round is `cachedLastRound + 1`. -/
def canPopApplieds (s : St) : Prop :=
  (∃ b ∈ s.outOfOrderApplieds, b.round = s.cachedLastRound + 1) ∧
    ∀ b ∈ s.outOfOrderApplieds, s.cachedLastRound + 1 ≤ b.round

instance (s : St) : Decidable (canPopDiffs s) := by
  unfold canPopDiffs
  exact instDecidableAnd

instance (s : St) : Decidable (canPopApplieds s) := by
  unfold canPopApplieds
  exact instDecidableAnd

/-- The synthetic "previous" summary installed for a first-time bootstrap:
block namespace, round `cachedLastRound + 1`, empty IO and state roots at
that round. -/
def dummySummary (ns r : Nat) : blockSummary :=
  { ns := ns, round := r,
    ioRoot := { ns := 0, round := r, hash := emptyHash },
    stateRoot := { ns := 0, round := r, hash := emptyHash } }

/-- Accumulator of the per-round scheduling loop: the updated
`syncingRounds` map and the fetch tasks submitted so far (in submission
order). -/
structure schedAcc where
  syn : List (Nat × inFlight)
  tasks : List fetchTask

/-- Body of the scheduling loop for one round `i` that was not skipped:
move any bit that is awaiting retry and not outstanding from
`awaitingRetry` to `outstanding`, submitting the corresponding fetch.  IO
roots are not chained, so the IO fetch diffs against an empty previous IO
root; the state fetch diffs against round `i-1`'s state root. -/
def scheduleFetches (hc : List (Nat × blockSummary)) (acc : schedAcc) (i : Nat)
    (syncing : inFlight) : schedAcc :=
  let prev := (alookup hc (i - 1)).getD (dummySummary 0 0)
  let this := (alookup hc i).getD (dummySummary 0 0)
  let prevIORoot : Root := { ns := this.ioRoot.ns, round := this.ioRoot.round, hash := emptyHash }
  let s1 : inFlight × List fetchTask :=
    if syncing.outstanding.io = false ∧ syncing.awaitingRetry.io = true then
      (⟨syncing.outstanding.or maskIO, syncing.awaitingRetry.andNot maskIO⟩,
        [{ round := this.round, prevRoot := prevIORoot, thisRoot := this.ioRoot, mask := maskIO }])
    else (syncing, [])
  let s2 : inFlight × List fetchTask :=
    if s1.1.outstanding.st = false ∧ s1.1.awaitingRetry.st = true then
      (⟨s1.1.outstanding.or maskState, s1.1.awaitingRetry.andNot maskState⟩,
        [{ round := this.round, prevRoot := prev.stateRoot, thisRoot := this.stateRoot, mask := maskState }])
    else (s1.1, [])
  { syn := ainsert acc.syn i s2.1, tasks := acc.tasks ++ s1.2 ++ s2.2 }

/-- One iteration of `for i := cachedLastRound + 1; i <= blk.Header.Round; i++`:
skip the round if its fetches are all outstanding, otherwise look up or
create its `inFlight` entry and schedule the missing fetches. -/
def scheduleOne (hc : List (Nat × blockSummary)) (acc : schedAcc) (i : Nat) : schedAcc :=
  match alookup acc.syn i with
  | some syncing =>
    if syncing.outstanding = maskAll then acc
    else scheduleFetches hc acc i syncing
  | none => scheduleFetches hc acc i ⟨maskNone, maskAll⟩

/-- The `hashCache` fill loop: cache the summary of each listed round that
is still missing (`hist` models the `Roothash.GetBlock` lookups). -/
def hcFill (hist : Nat → blockSummary) (hc : List (Nat × blockSummary)) :
    List Nat → List (Nat × blockSummary)
  | [] => hc
  | i :: rest =>
    hcFill hist (if (alookup hc i).isSome then hc else ainsert hc i (hist i)) rest

/-- The scheduling loop over a list of rounds. -/
def schedule (hc : List (Nat × blockSummary)) (acc : schedAcc) :
    List Nat → schedAcc
  | [] => acc
  | i :: rest => schedule hc (scheduleOne hc acc i) rest

/-- First-time bootstrap: install the synthetic previous summary for the
sentinel round if nothing has ever been cached there. -/
def hcWithDummy (u : Nat) (hc : List (Nat × blockSummary)) (ns clr : Nat) :
    List (Nat × blockSummary) :=
  if (alookup hc clr).isNone ∧ clr = u then
    ainsert hc clr (dummySummary ns (clr + 1))
  else hc

/-- `startSummaryRound` of the catch-up loop, in the (wrap-free) `Nat`
model of the follower loop: bump `cachedLastRound` once when it is the
sentinel. -/
def startRoundNat (u clr : Nat) : Nat :=
  if clr = u then clr + 1 else clr

/-- Cache the incoming block's summary if it is not cached yet. -/
def hcAddBlock (hc : List (Nat × blockSummary)) (blk : blockSummary) :
    List (Nat × blockSummary) :=
  if (alookup hc blk.round).isSome then hc else ainsert hc blk.round blk

/-- Handling one block from `blockCh` (round `blk.round`): install the
bootstrap dummy if needed, fill `hashCache` for the missing historical
rounds (`hist` models the `Roothash.GetBlock` lookups, which are trusted
to return the block of the requested round), cache the incoming block's
summary, then run the scheduling loop.  Fails (no transition) only if the
environment would serve a historical block that is not at its round. -/
def handleNewBlock (u : Nat) (s : St) (blk : blockSummary)
    (hist : Nat → blockSummary) : Option St :=
  let clr := s.cachedLastRound
  let hc0 := hcWithDummy u s.hashCache blk.ns clr
  let start := startRoundNat u clr
  let catchUp := List.range' start (blk.round - start)
  if ∀ i ∈ catchUp, (hist i).round = i then
    let hc1 := hcFill hist hc0 catchUp
    let hc2 := hcAddBlock hc1 blk
    let sched := List.range' (clr + 1) (blk.round - clr)
    let acc := schedule hc2 ⟨s.syncingRounds, []⟩ sched
    some { s with
      hashCache := hc2,
      syncingRounds := acc.syn,
      fetchers := s.fetchers ++ acc.tasks }
  else none

/-- Events resolving the follower loop's nondeterminism.  The `pre`/`post`
lists pin which queue element is popped (any minimal one, matching the
unstable heap) or which in-flight task completes (any of them, matching
the unordered pool and the unbuffered channels). -/
inductive Ev where
  | popDiff (pre : List fetchedDiff) (d : fetchedDiff) (post : List fetchedDiff) (applyOk : Bool)
  | popApplied (pre : List blockSummary) (b : blockSummary) (post : List blockSummary)
  | newBlock (blk : blockSummary) (hist : Nat → blockSummary)
  | diffOk (pre : List fetchTask) (t : fetchTask) (post : List fetchTask)
      (fetched : Bool) (wl : List Nat)
  | diffErr (pre : List fetchTask) (t : fetchTask) (post : List fetchTask) (e : Nat)
  | finDone (pre : List blockSummary) (f : blockSummary) (post : List blockSummary)

/-- One iteration of the follower loop, under the drain-before-wait
discipline.  `u` is `n.undefinedRound`.  `none` means the event is not
enabled in this state (or the Go code would crash on a nil map entry). -/
def step (u : Nat) (s : St) : Ev → Option St
  | Ev.popDiff pre d post applyOk =>
    if s.outOfOrderDiffs = pre ++ d :: post ∧ d.round = s.lastFullyAppliedRound + 1 ∧
        (∀ x ∈ s.outOfOrderDiffs, s.lastFullyAppliedRound + 1 ≤ x.round) then
      match alookup s.syncingRounds d.round with
      | none => none
      | some syncing =>
        let tr := s.trace ++
          (if d.fetched then [TEv.applyCall d.round d.fetchMask applyOk] else [])
        let syncing' : inFlight :=
          ⟨syncing.outstanding.andNot d.fetchMask, syncing.awaitingRetry⟩
        if syncing'.outstanding = maskNone ∧ syncing'.awaitingRetry = maskNone then
          match alookup s.hashCache d.round with
          | none => none
          | some summary =>
            some { s with
              outOfOrderDiffs := pre ++ post,
              syncingRounds := aerase s.syncingRounds d.round,
              hashCache := aerase s.hashCache (d.round - 1),
              lastFullyAppliedRound := d.round,
              outOfOrderApplieds := s.outOfOrderApplieds ++ [summary],
              trace := tr ++ [TEv.roundDone d.round] }
        else
          some { s with
            outOfOrderDiffs := pre ++ post,
            syncingRounds := ainsert s.syncingRounds d.round syncing',
            trace := tr }
    else none
  | Ev.popApplied pre b post =>
    if ¬ canPopDiffs s ∧ s.outOfOrderApplieds = pre ++ b :: post ∧
        b.round = s.cachedLastRound + 1 ∧
        (∀ x ∈ s.outOfOrderApplieds, s.cachedLastRound + 1 ≤ x.round) then
      some { s with
        outOfOrderApplieds := pre ++ post,
        finalizers := s.finalizers ++ [b],
        trace := s.trace ++ [TEv.finSpawn b.round] }
    else none
  | Ev.newBlock blk hist =>
    if ¬ canPopDiffs s ∧ ¬ canPopApplieds s then handleNewBlock u s blk hist
    else none
  | Ev.diffOk pre t post fetched wl =>
    if ¬ canPopDiffs s ∧ ¬ canPopApplieds s ∧ s.fetchers = pre ++ t :: post then
      some { s with
        fetchers := pre ++ post,
        outOfOrderDiffs := s.outOfOrderDiffs ++
          [{ fetchMask := t.mask, fetched := fetched, err := none, round := t.round,
             prevRoot := t.prevRoot, thisRoot := t.thisRoot, writeLog := wl }] }
    else none
  | Ev.diffErr pre t post _ =>
    if ¬ canPopDiffs s ∧ ¬ canPopApplieds s ∧ s.fetchers = pre ++ t :: post then
      match alookup s.syncingRounds t.round with
      | none => none
      | some syncing =>
        some { s with
          fetchers := pre ++ post,
          syncingRounds := ainsert s.syncingRounds t.round
            ⟨syncing.outstanding.andNot t.mask, syncing.awaitingRetry.or t.mask⟩ }
    else none
  | Ev.finDone pre f post =>
    if ¬ canPopDiffs s ∧ ¬ canPopApplieds s ∧ s.finalizers = pre ++ f :: post then
      some { s with
        finalizers := pre ++ post,
        cachedLastRound := f.round,
        trace := s.trace ++ [TEv.finComplete f.round] }
    else none

/-- The state right after `worker()`'s initialization: both round cursors
at the (already clamped) initial `cachedLastRound`, everything else
empty. -/
def initSt (r0 : Nat) : St :=
  { cachedLastRound := r0, lastFullyAppliedRound := r0,
    outOfOrderDiffs := [], outOfOrderApplieds := [], syncingRounds := [],
    hashCache := [], fetchers := [], finalizers := [], trace := [] }

/-- Run a list of loop iterations from a state. -/
def runFrom (u : Nat) (s : St) : List Ev → Option St
  | [] => some s
  | e :: evs =>
    match step u s e with
    | none => none
    | some s' => runFrom u s' evs

/-- States of the follower loop reachable in a run with working sentinel
`u` and initial cached round `r0`. -/
def Reachable (u r0 : Nat) (s : St) : Prop :=
  ∃ evs, runFrom u (initSt r0) evs = some s

/-! ## Trace projections and counting -/

/-- Rounds of the `localStorage.Apply` calls, in call order. -/
def applyRounds (tr : List TEv) : List Nat :=
  tr.filterMap (fun e => match e with
    | TEv.applyCall r _ _ => some r
    | _ => none)

/-- Rounds whose applies completed (each advance of
`lastFullyAppliedRound`), in order. -/
def roundDones (tr : List TEv) : List Nat :=
  tr.filterMap (fun e => match e with
    | TEv.roundDone r => some r
    | _ => none)

/-- The finalizer-related events of a trace, in order. -/
def finEvents (tr : List TEv) : List TEv :=
  tr.filter (fun e => match e with
    | TEv.finSpawn _ => true
    | TEv.finComplete _ => true
    | _ => false)

/-- The canonical strictly serialized finalize history for rounds
`r0+1 ... k`: each spawn immediately followed by its completion. -/
def finSeq (r0 k : Nat) : List TEv :=
  (List.range' (r0 + 1) (k - r0)).flatMap
    (fun r => [TEv.finSpawn r, TEv.finComplete r])

/-- Number of entries for round `r` in the applieds queue. -/
def appliedCount (l : List blockSummary) (r : Nat) : Nat :=
  l.countP (fun b => b.round == r)

/-- In-flight fetch-pool tasks for round `i` carrying subtree bit `b`. -/
def taskCnt (fetchers : List fetchTask) (i : Nat) (b : Bool) : Nat :=
  fetchers.countP (fun t => t.round == i && t.mask.bit b)

/-- Entries of the diffs queue for round `i` carrying subtree bit `b`. -/
def diffCnt (diffs : List fetchedDiff) (i : Nat) (b : Bool) : Nat :=
  diffs.countP (fun d => d.round == i && d.fetchMask.bit b)

/-- Total carriers of subtree bit `b` for round `i`: a fetch in flight or
a fetched diff waiting in the queue. -/
def carrierCnt (fetchers : List fetchTask) (diffs : List fetchedDiff)
    (i : Nat) (b : Bool) : Nat :=
  taskCnt fetchers i b + diffCnt diffs i b

/-- Conservation at round `i`: a missing `syncingRounds` entry has no
carriers; an entry has exactly one carrier per outstanding bit, and its
two masks are disjoint. -/
def syncAt (syn : List (Nat × inFlight)) (fetchers : List fetchTask)
    (diffs : List fetchedDiff) (i : Nat) : Prop :=
  match alookup syn i with
  | none => ∀ b, carrierCnt fetchers diffs i b = 0
  | some fl =>
    (∀ b, carrierCnt fetchers diffs i b = (if fl.outstanding.bit b then 1 else 0)) ∧
      fl.outstanding.inter fl.awaitingRetry = maskNone

/-- The inductive invariant of the follower loop. -/
structure LoopInv (u r0 : Nat) (s : St) : Prop where
  ur : u ≤ r0
  clrLB : r0 ≤ s.cachedLastRound
  clrLfar : s.cachedLastRound ≤ s.lastFullyAppliedRound
  hcRound : ∀ p ∈ s.hashCache, p.2.round = p.1 ∨ (p.1 = u ∧ p.2.round = u + 1)
  finOne : s.finalizers = [] ∨
    ∃ f, s.finalizers = [f] ∧ f.round = s.cachedLastRound + 1 ∧
      f.round ≤ s.lastFullyAppliedRound
  applCnt : ∀ r, appliedCount s.outOfOrderApplieds r =
    if s.cachedLastRound + s.finalizers.length + 1 ≤ r ∧
        r ≤ s.lastFullyAppliedRound then 1 else 0
  syncOK : ∀ i, syncAt s.syncingRounds s.fetchers s.outOfOrderDiffs i
  taskShape : ∀ t ∈ s.fetchers, t.mask = maskIO ∨ t.mask = maskState
  diffShape : ∀ d ∈ s.outOfOrderDiffs, d.fetchMask = maskIO ∨ d.fetchMask = maskState
  hcPresent : ∀ p ∈ s.syncingRounds, s.lastFullyAppliedRound < p.1 →
    (alookup s.hashCache p.1).isSome
  applyChain : List.Chain' (· ≤ ·) (applyRounds s.trace)
  applyHigh : ∀ r ∈ applyRounds s.trace, r ≤ s.lastFullyAppliedRound + 1
  applyLow : ∀ r ∈ applyRounds s.trace, r0 + 1 ≤ r
  doneTr : roundDones s.trace = List.range' (r0 + 1) (s.lastFullyAppliedRound - r0)
  finTr : finEvents s.trace = finSeq r0 s.cachedLastRound ++
    (if s.finalizers.isEmpty then [] else [TEv.finSpawn (s.cachedLastRound + 1)])

theorem inv_init (u r0 : Nat) (h : u ≤ r0) : LoopInv u r0 (initSt r0) := by
  constructor <;>
    simp [initSt, h, appliedCount, syncAt, alookup, carrierCnt, taskCnt, diffCnt,
      applyRounds, roundDones, finEvents, finSeq, List.Chain']
  intro r
  have : ¬ (r0 + 1 ≤ r ∧ r ≤ r0) := by omega
  simp [this]

/-! ## Small list lemmas used by the preservation proofs -/

theorem list_single_split {α : Type} {a x : α} {pre post : List α}
    (h : [a] = pre ++ x :: post) : pre = [] ∧ x = a ∧ post = [] := by
  cases pre with
  | nil =>
    simp only [List.nil_append, List.cons.injEq] at h
    exact ⟨rfl, h.1.symm, h.2.symm⟩
  | cons p t =>
    simp only [List.cons_append, List.cons.injEq] at h
    have := h.2
    exact absurd this.symm (by simp)

theorem countP_middle {α : Type} (p : α → Bool) (pre post : List α) (x : α) :
    (pre ++ x :: post).countP p =
      (pre ++ post).countP p + (if p x then 1 else 0) := by
  simp only [List.countP_append, List.countP_cons]
  omega

theorem applyRounds_append (l1 l2 : List TEv) :
    applyRounds (l1 ++ l2) = applyRounds l1 ++ applyRounds l2 :=
  List.filterMap_append l1 l2 _

theorem roundDones_append (l1 l2 : List TEv) :
    roundDones (l1 ++ l2) = roundDones l1 ++ roundDones l2 :=
  List.filterMap_append l1 l2 _

theorem finEvents_append (l1 l2 : List TEv) :
    finEvents (l1 ++ l2) = finEvents l1 ++ finEvents l2 :=
  List.filter_append l1 l2

theorem finSeq_concat (r0 k : Nat) (h : r0 ≤ k) :
    finSeq r0 (k + 1) =
      finSeq r0 k ++ [TEv.finSpawn (k + 1), TEv.finComplete (k + 1)] := by
  unfold finSeq
  have h1 : k + 1 - r0 = (k - r0) + 1 := by omega
  rw [h1, List.range'_concat]
  have h2 : r0 + 1 + 1 * (k - r0) = k + 1 := by omega
  rw [h2, List.flatMap_append]
  simp

/-! ## Preservation of the invariant, per event -/

theorem inv_finDone {u r0 : Nat} {s s' : St} {pre post : List blockSummary}
    {f : blockSummary} (hI : LoopInv u r0 s)
    (hs : step u s (Ev.finDone pre f post) = some s') : LoopInv u r0 s' := by
  simp only [step] at hs
  split at hs
  case isFalse => exact absurd hs (by simp)
  case isTrue hcond =>
    obtain ⟨hnd, hna, hsplit⟩ := hcond
    rcases hI.finOne with hfe | ⟨f0, hf0, hfr, hfl⟩
    · rw [hfe] at hsplit
      cases pre <;> simp at hsplit
    · rw [hf0] at hsplit
      obtain ⟨hpre, hfx, hpost⟩ := list_single_split hsplit
      subst hpre
      subst hpost
      subst hfx
      injection hs with hs
      subst hs
      have hclr : f.round = s.cachedLastRound + 1 := hfr
      refine ⟨hI.ur, ?_, ?_, hI.hcRound, ?_, ?_, hI.syncOK, hI.taskShape,
        hI.diffShape, hI.hcPresent, ?_, ?_, ?_, ?_, ?_⟩
      · simp only
        have := hI.clrLB
        omega
      · simp only
        omega
      · exact Or.inl rfl
      · intro r
        have h1 := hI.applCnt r
        simp only [hf0, List.length_cons, List.length_nil] at h1
        simp only [List.nil_append, List.length_nil]
        rw [h1]
        by_cases hr : s.cachedLastRound + (0 + 1) + 1 ≤ r ∧ r ≤ s.lastFullyAppliedRound
        · rw [if_pos hr, if_pos (by rw [hclr]; omega)]
        · rw [if_neg hr, if_neg (by rw [hclr]; omega)]
      · simp only [applyRounds_append]
        have : applyRounds [TEv.finComplete f.round] = [] := by
          simp [applyRounds]
        rw [this, List.append_nil]
        exact hI.applyChain
      · simp only [applyRounds_append]
        have : applyRounds [TEv.finComplete f.round] = [] := by
          simp [applyRounds]
        rw [this, List.append_nil]
        exact hI.applyHigh
      · simp only [applyRounds_append]
        have : applyRounds [TEv.finComplete f.round] = [] := by
          simp [applyRounds]
        rw [this, List.append_nil]
        exact hI.applyLow
      · simp only [roundDones_append]
        have : roundDones [TEv.finComplete f.round] = [] := by
          simp [roundDones]
        rw [this, List.append_nil]
        exact hI.doneTr
      · simp only [finEvents_append]
        have h1 : finEvents [TEv.finComplete f.round] = [TEv.finComplete f.round] := by
          simp [finEvents]
        rw [h1, hI.finTr]
        simp only [hf0, List.isEmpty_cons, List.nil_append, List.isEmpty_nil]
        rw [hclr, finSeq_concat r0 s.cachedLastRound hI.clrLB]
        simp

theorem inv_popApplied {u r0 : Nat} {s s' : St} {pre post : List blockSummary}
    {b : blockSummary} (hI : LoopInv u r0 s)
    (hs : step u s (Ev.popApplied pre b post) = some s') : LoopInv u r0 s' := by
  simp only [step] at hs
  split at hs
  case isFalse => exact absurd hs (by simp)
  case isTrue hcond =>
    obtain ⟨hnd, hsplit, hbr, hmin⟩ := hcond
    injection hs with hs
    subst hs
    have hb1 : 1 ≤ appliedCount s.outOfOrderApplieds (s.cachedLastRound + 1) := by
      rw [hsplit]
      unfold appliedCount
      rw [countP_middle]
      simp [hbr]
    have hfc := hI.applCnt (s.cachedLastRound + 1)
    have hcond2 : s.cachedLastRound + s.finalizers.length + 1 ≤ s.cachedLastRound + 1 ∧
        s.cachedLastRound + 1 ≤ s.lastFullyAppliedRound := by
      by_contra hcc
      rw [if_neg hcc] at hfc
      omega
    have hlen : s.finalizers.length = 0 := by omega
    have hfe : s.finalizers = [] := List.length_eq_zero.mp hlen
    have hlfar : s.cachedLastRound + 1 ≤ s.lastFullyAppliedRound := hcond2.2
    refine ⟨hI.ur, hI.clrLB, hI.clrLfar, hI.hcRound, ?_, ?_, hI.syncOK,
      hI.taskShape, hI.diffShape, hI.hcPresent, ?_, ?_, ?_, ?_, ?_⟩
    · refine Or.inr ⟨b, ?_, hbr, ?_⟩
      · simp [hfe]
      · show b.round ≤ s.lastFullyAppliedRound
        omega
    · intro r
      show appliedCount (pre ++ post) r =
        if s.cachedLastRound + (s.finalizers ++ [b]).length + 1 ≤ r ∧
            r ≤ s.lastFullyAppliedRound then 1 else 0
      simp only [hfe, List.nil_append, List.length_cons, List.length_nil]
      have hold := hI.applCnt r
      rw [hfe] at hold
      simp only [List.length_nil] at hold
      have hmid : appliedCount s.outOfOrderApplieds r =
          appliedCount (pre ++ post) r + (if (b.round == r) then 1 else 0) := by
        rw [hsplit]
        unfold appliedCount
        exact countP_middle _ pre post b
      by_cases hreq : r = s.cachedLastRound + 1
      · have hbeq : (b.round == r) = true := by
          simp [hbr, hreq]
        rw [hbeq] at hmid
        simp at hmid
        rw [if_pos (by omega)] at hold
        rw [if_neg (by omega)]
        omega
      · have hbeq : (b.round == r) = false := by
          simp [hbr]
          omega
        rw [hbeq] at hmid
        simp at hmid
        rw [← hmid, hold]
        by_cases hc2 : s.cachedLastRound + 0 + 1 ≤ r ∧ r ≤ s.lastFullyAppliedRound
        · rw [if_pos hc2, if_pos (by omega)]
        · rw [if_neg hc2, if_neg (by omega)]
    · simp only [applyRounds_append]
      have : applyRounds [TEv.finSpawn b.round] = [] := by simp [applyRounds]
      rw [this, List.append_nil]
      exact hI.applyChain
    · simp only [applyRounds_append]
      have : applyRounds [TEv.finSpawn b.round] = [] := by simp [applyRounds]
      rw [this, List.append_nil]
      exact hI.applyHigh
    · simp only [applyRounds_append]
      have : applyRounds [TEv.finSpawn b.round] = [] := by simp [applyRounds]
      rw [this, List.append_nil]
      exact hI.applyLow
    · simp only [roundDones_append]
      have : roundDones [TEv.finSpawn b.round] = [] := by simp [roundDones]
      rw [this, List.append_nil]
      exact hI.doneTr
    · simp only [finEvents_append]
      have h1 : finEvents [TEv.finSpawn b.round] = [TEv.finSpawn b.round] := by
        simp [finEvents]
      rw [h1, hI.finTr]
      simp only [hfe, List.isEmpty_nil, List.nil_append, List.isEmpty_cons]
      simp [hbr]

theorem outstandingMask.bit_or (a m : outstandingMask) (b : Bool) :
    (a.or m).bit b = (a.bit b || m.bit b) := by
  cases b <;> rfl

theorem outstandingMask.bit_andNot (a m : outstandingMask) (b : Bool) :
    (a.andNot m).bit b = (a.bit b && !(m.bit b)) := by
  cases b <;> rfl

theorem outstandingMask.inter_none_iff (a c : outstandingMask) :
    a.inter c = maskNone ↔ ∀ b, (a.bit b && c.bit b) = false := by
  cases a with
  | mk aio ast =>
    cases c with
    | mk cio cst =>
      constructor
      · intro h b
        cases b <;>
          simpa [outstandingMask.inter, maskNone, outstandingMask.bit,
            outstandingMask.mk.injEq] using
            (by
              cases aio <;> cases ast <;> cases cio <;> cases cst <;>
                simp_all [outstandingMask.inter, maskNone])
      · intro h
        have h1 := h true
        have h2 := h false
        simp [outstandingMask.bit] at h1 h2
        simp [outstandingMask.inter, maskNone]
        constructor
        · cases aio <;> cases cio <;> simp_all
        · cases ast <;> cases cst <;> simp_all

theorem outstandingMask.eq_none_iff (a : outstandingMask) :
    a = maskNone ↔ ∀ b, a.bit b = false := by
  cases a with
  | mk aio ast =>
    constructor
    · intro h b
      cases b <;> simp_all [maskNone, outstandingMask.bit]
    · intro h
      have h1 := h true
      have h2 := h false
      simp [outstandingMask.bit] at h1 h2
      simp [maskNone, h1, h2]

theorem inv_diffOk {u r0 : Nat} {s s' : St} {pre post : List fetchTask}
    {t : fetchTask} {fetched : Bool} {wl : List Nat} (hI : LoopInv u r0 s)
    (hs : step u s (Ev.diffOk pre t post fetched wl) = some s') : LoopInv u r0 s' := by
  simp only [step] at hs
  split at hs
  case isFalse => exact absurd hs (by simp)
  case isTrue hcond =>
    obtain ⟨hnd, hna, hsplit⟩ := hcond
    injection hs with hs
    subst hs
    have htmem : t ∈ s.fetchers := by
      rw [hsplit]
      exact List.mem_append_right pre (List.mem_cons_self t post)
    have hcar : ∀ i b,
        carrierCnt (pre ++ post)
          (s.outOfOrderDiffs ++
            [{ fetchMask := t.mask, fetched := fetched, err := none, round := t.round,
               prevRoot := t.prevRoot, thisRoot := t.thisRoot, writeLog := wl }]) i b =
        carrierCnt s.fetchers s.outOfOrderDiffs i b := by
      intro i b
      unfold carrierCnt taskCnt diffCnt
      rw [hsplit]
      simp [List.countP_append, List.countP_cons]
      omega
    refine ⟨hI.ur, hI.clrLB, hI.clrLfar, hI.hcRound, hI.finOne, hI.applCnt,
      ?_, ?_, ?_, hI.hcPresent, hI.applyChain, hI.applyHigh, hI.applyLow,
      hI.doneTr, hI.finTr⟩
    · intro i
      have hold := hI.syncOK i
      unfold syncAt at hold ⊢
      cases halo : alookup s.syncingRounds i with
      | none =>
        rw [halo] at hold
        intro b
        rw [hcar i b]
        exact hold b
      | some fl =>
        rw [halo] at hold
        refine ⟨?_, hold.2⟩
        intro b
        rw [hcar i b]
        exact hold.1 b
    · intro x hx
      exact hI.taskShape x (by
        rw [hsplit]
        rcases List.mem_append.mp hx with h | h
        · exact List.mem_append_left _ h
        · exact List.mem_append_right _ (List.mem_cons_of_mem t h))
    · intro d hd
      rcases List.mem_append.mp hd with h | h
      · exact hI.diffShape d h
      · have hde : d =
            { fetchMask := t.mask
              fetched := fetched
              err := none
              round := t.round
              prevRoot := t.prevRoot
              thisRoot := t.thisRoot
              writeLog := wl } := by
          simpa using h
        rw [hde]
        exact hI.taskShape t htmem

theorem inv_diffErr {u r0 : Nat} {s s' : St} {pre post : List fetchTask}
    {t : fetchTask} {e : Nat} (hI : LoopInv u r0 s)
    (hs : step u s (Ev.diffErr pre t post e) = some s') : LoopInv u r0 s' := by
  simp only [step] at hs
  split at hs
  case isFalse => exact absurd hs (by simp)
  case isTrue hcond =>
    obtain ⟨hnd, hna, hsplit⟩ := hcond
    cases halo : alookup s.syncingRounds t.round with
    | none =>
      rw [halo] at hs
      exact absurd hs (by simp)
    | some syncing =>
      rw [halo] at hs
      injection hs with hs
      subst hs
      have hold := hI.syncOK t.round
      unfold syncAt at hold
      rw [halo] at hold
      -- removing t lowers each of its bits' carrier count by one
      have hdrop : ∀ b, carrierCnt (pre ++ post) s.outOfOrderDiffs t.round b +
          (if (t.round == t.round && t.mask.bit b) = true then 1 else 0) =
          carrierCnt s.fetchers s.outOfOrderDiffs t.round b := by
        intro b
        unfold carrierCnt taskCnt diffCnt
        rw [hsplit, countP_middle]
        omega
      have hsame : ∀ i, i ≠ t.round → ∀ b,
          carrierCnt (pre ++ post) s.outOfOrderDiffs i b =
          carrierCnt s.fetchers s.outOfOrderDiffs i b := by
        intro i hne b
        unfold carrierCnt taskCnt diffCnt
        rw [hsplit, countP_middle]
        have : (t.round == i && t.mask.bit b) = false := by
          simp
          intro hti
          exact absurd hti (by omega)
        rw [this]
        simp
      refine ⟨hI.ur, hI.clrLB, hI.clrLfar, hI.hcRound, hI.finOne, hI.applCnt,
        ?_, ?_, hI.diffShape, ?_, hI.applyChain, hI.applyHigh, hI.applyLow,
        hI.doneTr, hI.finTr⟩
      · intro i
        unfold syncAt
        by_cases hieq : i = t.round
        · subst hieq
          rw [alookup_ainsert_self]
          constructor
          · intro b
            rw [outstandingMask.bit_andNot]
            by_cases hmb : t.mask.bit b = true
            · -- the removed task carried bit b, so it was outstanding
              have hge : 1 ≤ carrierCnt s.fetchers s.outOfOrderDiffs t.round b := by
                have h1 := hdrop b
                have h2 : (t.round == t.round && t.mask.bit b) = true := by
                  simp [hmb]
                rw [h2] at h1
                simp at h1
                omega
              have hob : syncing.outstanding.bit b = true := by
                by_contra hq
                have hz := hold.1 b
                simp [hq] at hz
                omega
              have h1 := hdrop b
              have h2 : (t.round == t.round && t.mask.bit b) = true := by
                simp [hmb]
              rw [h2] at h1
              simp at h1
              have h3 := hold.1 b
              rw [hob] at h3
              simp at h3
              simp [hmb, hob]
              omega
            · have hmb' : t.mask.bit b = false := by
                cases hq : t.mask.bit b
                · rfl
                · exact absurd hq hmb
              have h1 := hdrop b
              have h2 : (t.round == t.round && t.mask.bit b) = false := by
                simp [hmb']
              rw [h2] at h1
              simp at h1
              rw [h1]
              have h3 := hold.1 b
              rw [h3]
              simp [hmb']
          · rw [outstandingMask.inter_none_iff]
            intro b
            rw [outstandingMask.bit_andNot, outstandingMask.bit_or]
            have hdis := (outstandingMask.inter_none_iff _ _).mp hold.2 b
            cases hmb : t.mask.bit b <;>
              cases hob : syncing.outstanding.bit b <;>
                simp_all
        · rw [alookup_ainsert_ne _ _ _ _ hieq]
          have holdi := hI.syncOK i
          unfold syncAt at holdi
          cases halo2 : alookup s.syncingRounds i with
          | none =>
            rw [halo2] at holdi
            intro b
            rw [hsame i hieq b]
            exact holdi b
          | some fl =>
            rw [halo2] at holdi
            refine ⟨?_, holdi.2⟩
            intro b
            rw [hsame i hieq b]
            exact holdi.1 b
      · intro x hx
        exact hI.taskShape x (by
          rw [hsplit]
          rcases List.mem_append.mp hx with h | h
          · exact List.mem_append_left _ h
          · exact List.mem_append_right _ (List.mem_cons_of_mem t h))
      · intro p hp hlt
        rcases mem_ainsert hp with hpe | hpm
        · subst hpe
          exact hI.hcPresent (t.round, syncing) (alookup_mem halo) hlt
        · exact hI.hcPresent p hpm hlt

theorem chain_le_append_one {l : List Nat} {a : Nat}
    (hc : List.Chain' (· ≤ ·) l) (hb : ∀ x ∈ l, x ≤ a) :
    List.Chain' (· ≤ ·) (l ++ [a]) := by
  rw [List.chain'_append]
  refine ⟨hc, List.chain'_singleton a, ?_⟩
  intro x hx y hy
  simp only [List.head?_cons, Option.mem_def, Option.some.injEq] at hy
  subst hy
  obtain ⟨hne, hxl⟩ := List.mem_getLast?_eq_getLast hx
  exact hb x (hxl ▸ List.getLast_mem hne)

theorem inv_popDiff {u r0 : Nat} {s s' : St} {pre post : List fetchedDiff}
    {d : fetchedDiff} {applyOk : Bool} (hI : LoopInv u r0 s)
    (hs : step u s (Ev.popDiff pre d post applyOk) = some s') : LoopInv u r0 s' := by
  simp only [step] at hs
  split at hs
  case isFalse => exact absurd hs (by simp)
  case isTrue hcond =>
    obtain ⟨hsplit, hdr, hmin⟩ := hcond
    cases halo : alookup s.syncingRounds d.round with
    | none =>
      rw [halo] at hs
      exact absurd hs (by simp)
    | some syncing =>
      rw [halo] at hs
      dsimp only at hs
      have hdmem : d ∈ s.outOfOrderDiffs := by
        rw [hsplit]
        exact List.mem_append_right pre (List.mem_cons_self d post)
      have hold := hI.syncOK d.round
      unfold syncAt at hold
      rw [halo] at hold
      have hr0lfar : r0 ≤ s.lastFullyAppliedRound :=
        le_trans hI.clrLB hI.clrLfar
      -- removing d from the queue lowers each of its bits' carriers by one
      have hdrop : ∀ b, carrierCnt s.fetchers (pre ++ post) d.round b +
          (if (d.round == d.round && d.fetchMask.bit b) = true then 1 else 0) =
          carrierCnt s.fetchers s.outOfOrderDiffs d.round b := by
        intro b
        unfold carrierCnt taskCnt diffCnt
        rw [hsplit, countP_middle]
        omega
      have hsame : ∀ i, i ≠ d.round → ∀ b,
          carrierCnt s.fetchers (pre ++ post) i b =
          carrierCnt s.fetchers s.outOfOrderDiffs i b := by
        intro i hne b
        unfold carrierCnt taskCnt diffCnt
        rw [hsplit, countP_middle]
        have hz : (d.round == i && d.fetchMask.bit b) = false := by
          simp
          intro hti
          exact absurd hti (by omega)
        rw [hz]
        simp
      -- per-bit facts about the updated mask
      have hbitKept : ∀ b, d.fetchMask.bit b = false →
          carrierCnt s.fetchers (pre ++ post) d.round b =
            (if syncing.outstanding.bit b then 1 else 0) := by
        intro b hmb
        have h1 := hdrop b
        have h2 : (d.round == d.round && d.fetchMask.bit b) = false := by
          simp [hmb]
        rw [h2] at h1
        simp at h1
        rw [h1]
        exact hold.1 b
      have hbitOut : ∀ b, d.fetchMask.bit b = true →
          syncing.outstanding.bit b = true ∧
            carrierCnt s.fetchers (pre ++ post) d.round b = 0 := by
        intro b hmb
        have h1 := hdrop b
        have h2 : (d.round == d.round && d.fetchMask.bit b) = true := by
          simp [hmb]
        rw [h2] at h1
        simp at h1
        have hob : syncing.outstanding.bit b = true := by
          by_contra hq
          have hz := hold.1 b
          simp [hq] at hz
          omega
        have hz := hold.1 b
        rw [hob] at hz
        simp at hz
        exact ⟨hob, by omega⟩
      -- the applyCall appended to the trace (empty when not fetched)
      have happly : ∀ tr2 : List TEv, applyRounds (s.trace ++
          (if d.fetched = true then [TEv.applyCall d.round d.fetchMask applyOk] else []) ++ tr2) =
          applyRounds s.trace ++
            (if d.fetched = true then [d.round] else []) ++ applyRounds tr2 := by
        intro tr2
        rw [applyRounds_append, applyRounds_append]
        by_cases hf : d.fetched = true <;> simp [hf, applyRounds]
      split at hs
      case isTrue hdone =>
        -- round fully synced: delete the entry, advance, push the summary
        cases hhc : alookup s.hashCache d.round with
        | none =>
          rw [hhc] at hs
          exact absurd hs (by simp)
        | some summary =>
          rw [hhc] at hs
          injection hs with hs
          subst hs
          have hsr : summary.round = d.round := by
            rcases hI.hcRound (d.round, summary) (alookup_mem hhc) with h | ⟨hk, _⟩
            · exact h
            · exfalso
              have := hI.ur
              omega
          have hfc0 : s.cachedLastRound + s.finalizers.length ≤ s.lastFullyAppliedRound := by
            rcases hI.finOne with hfe | ⟨f, hf0, hfr, hfl⟩
            · simp [hfe]
              exact hI.clrLfar
            · rw [hf0]
              simp
              omega
          refine ⟨hI.ur, hI.clrLB, by simp; omega, ?_, ?_, ?_, ?_, hI.taskShape,
            ?_, ?_, ?_, ?_, ?_, ?_, ?_⟩
          · intro p hp
            exact hI.hcRound p (mem_aerase hp)
          · rcases hI.finOne with hfe | ⟨f, hf0, hfr, hfl⟩
            · exact Or.inl hfe
            · exact Or.inr ⟨f, hf0, hfr, by simp; omega⟩
          · intro r
            show appliedCount (s.outOfOrderApplieds ++ [summary]) r =
              if s.cachedLastRound + s.finalizers.length + 1 ≤ r ∧ r ≤ d.round
              then 1 else 0
            unfold appliedCount
            rw [List.countP_append]
            have hone := hI.applCnt r
            unfold appliedCount at hone
            rw [hone]
            simp only [List.countP_cons, List.countP_nil]
            by_cases hreq : r = d.round
            · have hbs : (summary.round == r) = true := by simp [hsr, hreq]
              rw [hbs]
              rw [if_neg (show ¬ (s.cachedLastRound + s.finalizers.length + 1 ≤ r ∧
                r ≤ s.lastFullyAppliedRound) by omega)]
              rw [if_pos (show s.cachedLastRound + s.finalizers.length + 1 ≤ r ∧
                r ≤ d.round by omega)]
              simp
            · have hbs : (summary.round == r) = false := by
                simp [hsr]
                omega
              rw [hbs]
              by_cases hc2 : s.cachedLastRound + s.finalizers.length + 1 ≤ r ∧
                  r ≤ s.lastFullyAppliedRound
              · rw [if_pos hc2, if_pos (show s.cachedLastRound + s.finalizers.length + 1 ≤ r ∧
                  r ≤ d.round by omega)]
                simp
              · rw [if_neg hc2, if_neg (show ¬ (s.cachedLastRound + s.finalizers.length + 1 ≤ r ∧
                  r ≤ d.round) by omega)]
                simp
          · intro i
            unfold syncAt
            show (match alookup (aerase s.syncingRounds d.round) i with
              | none => ∀ b, carrierCnt s.fetchers (pre ++ post) i b = 0
              | some fl =>
                (∀ b, carrierCnt s.fetchers (pre ++ post) i b =
                  (if fl.outstanding.bit b then 1 else 0)) ∧
                  fl.outstanding.inter fl.awaitingRetry = maskNone)
            by_cases hieq : i = d.round
            · subst hieq
              rw [alookup_aerase_self]
              intro b
              by_cases hmb : d.fetchMask.bit b = true
              · exact (hbitOut b hmb).2
              · have hmb' : d.fetchMask.bit b = false := by
                  cases hq : d.fetchMask.bit b
                  · rfl
                  · exact absurd hq hmb
                rw [hbitKept b hmb']
                -- outstanding bit must be clear: the new outstanding is empty
                have hzero := hdone.1
                have hz : (syncing.outstanding.andNot d.fetchMask).bit b = false := by
                  rw [hzero]
                  cases b <;> rfl
                rw [outstandingMask.bit_andNot, hmb'] at hz
                simp at hz
                simp [hz]
            · rw [alookup_aerase_ne _ _ _ hieq]
              have holdi := hI.syncOK i
              unfold syncAt at holdi
              cases halo2 : alookup s.syncingRounds i with
              | none =>
                rw [halo2] at holdi
                intro b
                rw [hsame i hieq b]
                exact holdi b
              | some fl =>
                rw [halo2] at holdi
                refine ⟨?_, holdi.2⟩
                intro b
                rw [hsame i hieq b]
                exact holdi.1 b
          · intro x hx
            exact hI.diffShape x (by
              rw [hsplit]
              rcases List.mem_append.mp hx with h | h
              · exact List.mem_append_left _ h
              · exact List.mem_append_right _ (List.mem_cons_of_mem d h))
          · intro p hp hlt
            simp only at hlt
            have hp0 := mem_aerase hp
            have hps := hI.hcPresent p hp0 (by omega)
            have hne : p.1 ≠ d.round - 1 := by omega
            rw [alookup_aerase_ne _ _ _ hne]
            exact hps
          · show List.Chain' (· ≤ ·) (applyRounds (s.trace ++ _ ++ [TEv.roundDone d.round]))
            rw [happly]
            have : applyRounds [TEv.roundDone d.round] = [] := by simp [applyRounds]
            rw [this, List.append_nil]
            by_cases hf : d.fetched = true
            · simp only [hf, if_pos]
              refine chain_le_append_one hI.applyChain ?_
              intro x hx
              have := hI.applyHigh x hx
              omega
            · simp only [hf]
              simp
              exact hI.applyChain
          · intro r hr
            rw [happly] at hr
            have : applyRounds [TEv.roundDone d.round] = [] := by simp [applyRounds]
            rw [this, List.append_nil] at hr
            show r ≤ d.round + 1
            rcases List.mem_append.mp hr with h | h
            · have := hI.applyHigh r h
              omega
            · by_cases hf : d.fetched = true
              · rw [if_pos hf] at h
                simp at h
                omega
              · rw [if_neg hf] at h
                simp at h
          · intro r hr
            rw [happly] at hr
            have : applyRounds [TEv.roundDone d.round] = [] := by simp [applyRounds]
            rw [this, List.append_nil] at hr
            rcases List.mem_append.mp hr with h | h
            · exact hI.applyLow r h
            · by_cases hf : d.fetched = true
              · rw [if_pos hf] at h
                simp at h
                omega
              · rw [if_neg hf] at h
                simp at h
          · show roundDones (s.trace ++ _ ++ [TEv.roundDone d.round]) =
              List.range' (r0 + 1) (d.round - r0)
            rw [roundDones_append, roundDones_append]
            have h1 : roundDones [TEv.roundDone d.round] = [d.round] := by
              simp [roundDones]
            have h2 : roundDones
                (if d.fetched = true then [TEv.applyCall d.round d.fetchMask applyOk] else []) = [] := by
              by_cases hf : d.fetched = true <;> simp [hf, roundDones]
            rw [h1, h2, List.append_nil, hI.doneTr]
            have h3 : d.round - r0 = (s.lastFullyAppliedRound - r0) + 1 := by omega
            rw [h3, List.range'_concat]
            have h4 : r0 + 1 + 1 * (s.lastFullyAppliedRound - r0) = d.round := by omega
            rw [h4]
          · show finEvents (s.trace ++ _ ++ [TEv.roundDone d.round]) = _
            rw [finEvents_append, finEvents_append]
            have h1 : finEvents [TEv.roundDone d.round] = [] := by simp [finEvents]
            have h2 : finEvents
                (if d.fetched = true then [TEv.applyCall d.round d.fetchMask applyOk] else []) = [] := by
              by_cases hf : d.fetched = true <;> simp [hf, finEvents]
            rw [h1, h2, List.append_nil, List.append_nil, hI.finTr]
      case isFalse hndone =>
        injection hs with hs
        subst hs
        refine ⟨hI.ur, hI.clrLB, hI.clrLfar, hI.hcRound, hI.finOne, hI.applCnt,
          ?_, hI.taskShape, ?_, ?_, ?_, ?_, ?_, ?_, ?_⟩
        · intro i
          unfold syncAt
          show (match alookup (ainsert s.syncingRounds d.round
              ⟨syncing.outstanding.andNot d.fetchMask, syncing.awaitingRetry⟩) i with
            | none => ∀ b, carrierCnt s.fetchers (pre ++ post) i b = 0
            | some fl =>
              (∀ b, carrierCnt s.fetchers (pre ++ post) i b =
                (if fl.outstanding.bit b then 1 else 0)) ∧
                fl.outstanding.inter fl.awaitingRetry = maskNone)
          by_cases hieq : i = d.round
          · subst hieq
            rw [alookup_ainsert_self]
            constructor
            · intro b
              rw [outstandingMask.bit_andNot]
              by_cases hmb : d.fetchMask.bit b = true
              · rw [(hbitOut b hmb).2, hmb]
                simp
              · have hmb' : d.fetchMask.bit b = false := by
                  cases hq : d.fetchMask.bit b
                  · rfl
                  · exact absurd hq hmb
                rw [hbitKept b hmb', hmb']
                simp
            · rw [outstandingMask.inter_none_iff]
              intro b
              rw [outstandingMask.bit_andNot]
              have hdis := (outstandingMask.inter_none_iff _ _).mp hold.2 b
              cases hob : syncing.outstanding.bit b <;> simp_all
          · rw [alookup_ainsert_ne _ _ _ _ hieq]
            have holdi := hI.syncOK i
            unfold syncAt at holdi
            cases halo2 : alookup s.syncingRounds i with
            | none =>
              rw [halo2] at holdi
              intro b
              rw [hsame i hieq b]
              exact holdi b
            | some fl =>
              rw [halo2] at holdi
              refine ⟨?_, holdi.2⟩
              intro b
              rw [hsame i hieq b]
              exact holdi.1 b
        · intro x hx
          exact hI.diffShape x (by
            rw [hsplit]
            rcases List.mem_append.mp hx with h | h
            · exact List.mem_append_left _ h
            · exact List.mem_append_right _ (List.mem_cons_of_mem d h))
        · intro p hp hlt
          simp only at hlt
          rcases mem_ainsert hp with hpe | hpm
          · subst hpe
            exact hI.hcPresent (d.round, syncing) (alookup_mem halo) hlt
          · exact hI.hcPresent p hpm hlt
        · show List.Chain' (· ≤ ·) (applyRounds (s.trace ++ _))
          rw [applyRounds_append]
          by_cases hf : d.fetched = true
          · simp only [hf, if_pos]
            have h1 : applyRounds [TEv.applyCall d.round d.fetchMask applyOk] = [d.round] := by
              simp [applyRounds]
            rw [h1]
            refine chain_le_append_one hI.applyChain ?_
            intro x hx
            have := hI.applyHigh x hx
            omega
          · simp only [hf]
            simp [applyRounds]
            exact hI.applyChain
        · intro r hr
          rw [applyRounds_append] at hr
          show r ≤ s.lastFullyAppliedRound + 1
          rcases List.mem_append.mp hr with h | h
          · exact hI.applyHigh r h
          · by_cases hf : d.fetched = true
            · rw [if_pos hf] at h
              simp [applyRounds] at h
              omega
            · rw [if_neg hf] at h
              simp [applyRounds] at h
        · intro r hr
          rw [applyRounds_append] at hr
          rcases List.mem_append.mp hr with h | h
          · exact hI.applyLow r h
          · by_cases hf : d.fetched = true
            · rw [if_pos hf] at h
              simp [applyRounds] at h
              have : r0 + 1 ≤ s.cachedLastRound + 1 := by
                have := hI.clrLB
                omega
              omega
            · rw [if_neg hf] at h
              simp [applyRounds] at h
        · show roundDones (s.trace ++ _) = _
          rw [roundDones_append]
          have h2 : roundDones
              (if d.fetched = true then [TEv.applyCall d.round d.fetchMask applyOk] else []) = [] := by
            by_cases hf : d.fetched = true <;> simp [hf, roundDones]
          rw [h2, List.append_nil]
          exact hI.doneTr
        · show finEvents (s.trace ++ _) = _
          rw [finEvents_append]
          have h2 : finEvents
              (if d.fetched = true then [TEv.applyCall d.round d.fetchMask applyOk] else []) = [] := by
            by_cases hf : d.fetched = true <;> simp [hf, finEvents]
          rw [h2, List.append_nil]
          exact hI.finTr

/-! ### Facts about the fill loop -/

theorem alookup_ainsert_isSome {α : Type} (l : List (Nat × α)) (k k' : Nat) (v : α)
    (h : (alookup l k').isSome) : (alookup (ainsert l k v) k').isSome := by
  by_cases he : k' = k
  · subst he
    rw [alookup_ainsert_self]
    rfl
  · rw [alookup_ainsert_ne _ _ _ _ he]
    exact h

theorem hcFill_mono (hist : Nat → blockSummary) :
    ∀ (rounds : List Nat) (hc : List (Nat × blockSummary)) (k : Nat),
      (alookup hc k).isSome → (alookup (hcFill hist hc rounds) k).isSome := by
  intro rounds
  induction rounds with
  | nil =>
    intro hc k h
    exact h
  | cons i rest ih =>
    intro hc k h
    simp only [hcFill]
    by_cases hp : (alookup hc i).isSome
    · rw [if_pos hp]
      exact ih hc k h
    · rw [if_neg hp]
      exact ih _ k (alookup_ainsert_isSome hc i k (hist i) h)

theorem hcFill_present (hist : Nat → blockSummary) :
    ∀ (rounds : List Nat) (hc : List (Nat × blockSummary)) (i : Nat),
      i ∈ rounds → (alookup (hcFill hist hc rounds) i).isSome := by
  intro rounds
  induction rounds with
  | nil =>
    intro hc i h
    simp at h
  | cons j rest ih =>
    intro hc i h
    rcases List.mem_cons.mp h with he | hm
    · subst he
      simp only [hcFill]
      by_cases hp : (alookup hc i).isSome
      · rw [if_pos hp]
        exact hcFill_mono hist rest hc i hp
      · rw [if_neg hp]
        refine hcFill_mono hist rest _ i ?_
        rw [alookup_ainsert_self]
        rfl
    · simp only [hcFill]
      by_cases hp : (alookup hc j).isSome
      · rw [if_pos hp]
        exact ih hc i hm
      · rw [if_neg hp]
        exact ih _ i hm

theorem hcFill_prop {P : Nat × blockSummary → Prop} (hist : Nat → blockSummary) :
    ∀ (rounds : List Nat) (hc : List (Nat × blockSummary)),
      (∀ p ∈ hc, P p) → (∀ i ∈ rounds, P (i, hist i)) →
      ∀ p ∈ hcFill hist hc rounds, P p := by
  intro rounds
  induction rounds with
  | nil =>
    intro hc hhc _ p hp
    exact hhc p hp
  | cons j rest ih =>
    intro hc hhc hr p hp
    simp only [hcFill] at hp
    by_cases hq : (alookup hc j).isSome
    · rw [if_pos hq] at hp
      exact ih hc hhc (fun i hi => hr i (List.mem_cons_of_mem j hi)) p hp
    · rw [if_neg hq] at hp
      refine ih _ ?_ (fun i hi => hr i (List.mem_cons_of_mem j hi)) p hp
      intro q hq2
      rcases mem_ainsert hq2 with he | hm
      · subst he
        exact hr j (List.mem_cons_self j rest)
      · exact hhc q hm

/-! ### Facts about the scheduling loop -/

/-- The bundle of invariant pieces threaded through the scheduling loop:
conservation between `syncingRounds` and the carriers, the shape of
submitted tasks, and a key property of every map entry. -/
def schedOK (K : Nat → Prop) (F : List fetchTask) (D : List fetchedDiff)
    (a : schedAcc) : Prop :=
  (∀ i, syncAt a.syn (F ++ a.tasks) D i) ∧
    (∀ t ∈ a.tasks, t.mask = maskIO ∨ t.mask = maskState) ∧
    (∀ p ∈ a.syn, K p.1)

theorem carrierCnt_tasks_append (F ts more : List fetchTask)
    (D : List fetchedDiff) (i : Nat) (b : Bool) :
    carrierCnt (F ++ (ts ++ more)) D i b =
      carrierCnt (F ++ ts) D i b +
        List.countP (fun t => t.round == i && t.mask.bit b) more := by
  unfold carrierCnt taskCnt
  simp only [List.countP_append]
  omega

theorem schedOK_insert {K : Nat → Prop} {F : List fetchTask} {D : List fetchedDiff}
    {acc : schedAcc} {i : Nat} (syn2 : inFlight) (more : List fetchTask)
    (h1 : ∀ j, syncAt acc.syn (F ++ acc.tasks) D j)
    (h2 : ∀ t ∈ acc.tasks, t.mask = maskIO ∨ t.mask = maskState)
    (h3 : ∀ p ∈ acc.syn, K p.1)
    (hKi : K i)
    (hmr : ∀ t ∈ more, t.round = i)
    (hms : ∀ t ∈ more, t.mask = maskIO ∨ t.mask = maskState)
    (hcar2 : ∀ b, carrierCnt (F ++ acc.tasks) D i b +
        List.countP (fun t => t.round == i && t.mask.bit b) more =
        (if syn2.outstanding.bit b then 1 else 0))
    (hdis2 : syn2.outstanding.inter syn2.awaitingRetry = maskNone) :
    schedOK K F D ⟨ainsert acc.syn i syn2, acc.tasks ++ more⟩ := by
  refine ⟨?_, ?_, ?_⟩
  · intro j
    unfold syncAt
    show (match alookup (ainsert acc.syn i syn2) j with
      | none => ∀ b, carrierCnt (F ++ (acc.tasks ++ more)) D j b = 0
      | some fl =>
        (∀ b, carrierCnt (F ++ (acc.tasks ++ more)) D j b =
          (if fl.outstanding.bit b then 1 else 0)) ∧
          fl.outstanding.inter fl.awaitingRetry = maskNone)
    by_cases hj : j = i
    · subst hj
      rw [alookup_ainsert_self]
      refine ⟨?_, hdis2⟩
      intro b
      rw [carrierCnt_tasks_append]
      exact hcar2 b
    · rw [alookup_ainsert_ne _ _ _ _ hj]
      have hcnt0 : ∀ b, List.countP (fun t => t.round == j && t.mask.bit b) more = 0 := by
        intro b
        rw [List.countP_eq_zero]
        intro t ht
        have := hmr t ht
        simp [this]
        intro hij
        exact absurd hij (by omega)
      have holdj := h1 j
      unfold syncAt at holdj
      cases halo : alookup acc.syn j with
      | none =>
        rw [halo] at holdj
        intro b
        rw [carrierCnt_tasks_append, hcnt0 b]
        have := holdj b
        omega
      | some fl =>
        rw [halo] at holdj
        refine ⟨?_, holdj.2⟩
        intro b
        rw [carrierCnt_tasks_append, hcnt0 b]
        have := holdj.1 b
        omega
  · intro t ht
    rcases List.mem_append.mp ht with h | h
    · exact h2 t h
    · exact hms t h
  · intro p hp
    rcases mem_ainsert hp with he | hm
    · subst he
      exact hKi
    · exact h3 p hm

theorem countP_pair_true {i : Nat} (t1 t2 : fetchTask)
    (h1 : t1.round = i) (h2 : t2.round = i) (hm1 : t1.mask = maskIO)
    (hm2 : t2.mask = maskState) (b : Bool) :
    List.countP (fun t => t.round == i && t.mask.bit b) [t1, t2] = 1 := by
  simp only [List.countP_cons, List.countP_nil, h1, h2, hm1, hm2]
  cases b <;> simp [outstandingMask.bit, maskIO, maskState]

theorem countP_one_io {i : Nat} (t1 : fetchTask) (h1 : t1.round = i)
    (hm1 : t1.mask = maskIO) (b : Bool) :
    List.countP (fun t => t.round == i && t.mask.bit b) [t1] =
      (if b then 1 else 0) := by
  simp only [List.countP_cons, List.countP_nil, h1, hm1]
  cases b <;> simp [outstandingMask.bit, maskIO]

theorem countP_one_st {i : Nat} (t1 : fetchTask) (h1 : t1.round = i)
    (hm1 : t1.mask = maskState) (b : Bool) :
    List.countP (fun t => t.round == i && t.mask.bit b) [t1] =
      (if b then 0 else 1) := by
  simp only [List.countP_cons, List.countP_nil, h1, hm1]
  cases b <;> simp [outstandingMask.bit, maskState]

theorem scheduleFetches_schedOK {K : Nat → Prop} {F : List fetchTask}
    {D : List fetchedDiff} {hc : List (Nat × blockSummary)} {acc : schedAcc}
    {i : Nat} (syncing : inFlight) (v : blockSummary)
    (hv : alookup hc i = some v) (hvr : v.round = i)
    (h1 : ∀ j, syncAt acc.syn (F ++ acc.tasks) D j)
    (h2 : ∀ t ∈ acc.tasks, t.mask = maskIO ∨ t.mask = maskState)
    (h3 : ∀ p ∈ acc.syn, K p.1)
    (hKi : K i)
    (hcar : ∀ b, carrierCnt (F ++ acc.tasks) D i b =
      (if syncing.outstanding.bit b then 1 else 0))
    (hdis : syncing.outstanding.inter syncing.awaitingRetry = maskNone) :
    schedOK K F D (scheduleFetches hc acc i syncing) := by
  have hdisb := (outstandingMask.inter_none_iff _ _).mp hdis
  unfold scheduleFetches
  simp only [hv, Option.getD_some]
  by_cases hio : syncing.outstanding.io = false ∧ syncing.awaitingRetry.io = true
  · rw [if_pos hio]
    dsimp only
    by_cases hst : (syncing.outstanding.or maskIO).st = false ∧
        (syncing.awaitingRetry.andNot maskIO).st = true
    · rw [if_pos hst]
      dsimp only
      rw [List.append_assoc, List.singleton_append]
      refine schedOK_insert _ _ h1 h2 h3 hKi ?_ ?_ ?_ ?_
      · intro t ht
        rcases List.mem_cons.mp ht with he | hm
        · rw [he]
          exact hvr
        · rcases List.mem_cons.mp hm with he2 | hm2
          · rw [he2]
            exact hvr
          · simp at hm2
      · intro t ht
        rcases List.mem_cons.mp ht with he | hm
        · rw [he]
          exact Or.inl rfl
        · rcases List.mem_cons.mp hm with he2 | hm2
          · rw [he2]
            exact Or.inr rfl
          · simp at hm2
      · intro b
        rw [hcar b]
        rw [countP_pair_true _ _ hvr hvr rfl rfl b]
        have hos : syncing.outstanding.st = false := by
          have := hst.1
          simpa [outstandingMask.or, maskIO] using this
        cases b <;>
          simp [outstandingMask.bit, outstandingMask.or, maskIO, maskState,
            hio.1, hos]
      · rw [outstandingMask.inter_none_iff]
        intro b
        cases b <;>
          simp [outstandingMask.bit, outstandingMask.or, outstandingMask.andNot,
            maskIO, maskState]
    · rw [if_neg hst]
      dsimp only
      rw [List.append_assoc]
      refine schedOK_insert _ _ h1 h2 h3 hKi ?_ ?_ ?_ ?_
      · intro t ht
        rw [List.append_nil] at ht
        rcases List.mem_cons.mp ht with he | hm
        · rw [he]
          exact hvr
        · simp at hm
      · intro t ht
        rw [List.append_nil] at ht
        rcases List.mem_cons.mp ht with he | hm
        · rw [he]
          exact Or.inl rfl
        · simp at hm
      · intro b
        rw [List.append_nil, countP_one_io _ hvr rfl b, hcar b]
        -- the state bit was not moved: either already outstanding or not awaiting
        rcases Decidable.not_and_iff_or_not.mp hst with hos | hrs
        · have hos' : (syncing.outstanding.or maskIO).st = syncing.outstanding.st := by
            simp [outstandingMask.or, maskIO]
          cases b <;>
            simp_all [outstandingMask.bit, outstandingMask.or, maskIO, hio.1]
        · cases b <;>
            simp_all [outstandingMask.bit, outstandingMask.or, maskIO, hio.1]
      · rw [outstandingMask.inter_none_iff]
        intro b
        have hd2 := hdisb b
        cases b <;>
          simp_all [outstandingMask.bit, outstandingMask.or, outstandingMask.andNot,
            maskIO]
  · rw [if_neg hio]
    dsimp only
    by_cases hst : syncing.outstanding.st = false ∧ syncing.awaitingRetry.st = true
    · rw [if_pos hst]
      dsimp only
      rw [List.append_nil]
      refine schedOK_insert _ _ h1 h2 h3 hKi ?_ ?_ ?_ ?_
      · intro t ht
        rcases List.mem_cons.mp ht with he | hm
        · rw [he]
          exact hvr
        · simp at hm
      · intro t ht
        rcases List.mem_cons.mp ht with he | hm
        · rw [he]
          exact Or.inr rfl
        · simp at hm
      · intro b
        rw [hcar b]
        rw [countP_one_st _ hvr rfl b]
        rcases Decidable.not_and_iff_or_not.mp hio with hoi | hri
        · cases b <;>
            simp_all [outstandingMask.bit, outstandingMask.or, maskState, hst.1]
        · cases b <;>
            simp_all [outstandingMask.bit, outstandingMask.or, maskState, hst.1]
      · rw [outstandingMask.inter_none_iff]
        intro b
        have hd2 := hdisb b
        cases b <;>
          simp_all [outstandingMask.bit, outstandingMask.or, outstandingMask.andNot,
            maskState]
    · rw [if_neg hst]
      dsimp only
      rw [List.append_nil, List.append_nil]
      have hgoal : schedOK K F D ⟨ainsert acc.syn i syncing, acc.tasks ++ []⟩ := by
        refine schedOK_insert _ _ h1 h2 h3 hKi ?_ ?_ ?_ hdis
        · intro t ht
          simp at ht
        · intro t ht
          simp at ht
        · intro b
          simp only [List.countP_nil]
          rw [hcar b]
          omega
      rw [List.append_nil] at hgoal
      exact hgoal

theorem scheduleOne_schedOK {K : Nat → Prop} {F : List fetchTask}
    {D : List fetchedDiff} {hc : List (Nat × blockSummary)} {acc : schedAcc}
    {i : Nat} (h : schedOK K F D acc) (v : blockSummary)
    (hv : alookup hc i = some v) (hvr : v.round = i) (hKi : K i) :
    schedOK K F D (scheduleOne hc acc i) := by
  obtain ⟨h1, h2, h3⟩ := h
  unfold scheduleOne
  cases halo : alookup acc.syn i with
  | some syncing =>
    have hold := h1 i
    unfold syncAt at hold
    rw [halo] at hold
    dsimp only
    by_cases hall : syncing.outstanding = maskAll
    · rw [if_pos hall]
      exact ⟨h1, h2, h3⟩
    · rw [if_neg hall]
      exact scheduleFetches_schedOK syncing v hv hvr h1 h2 h3 hKi hold.1 hold.2
  | none =>
    have hold := h1 i
    unfold syncAt at hold
    rw [halo] at hold
    dsimp only
    refine scheduleFetches_schedOK _ v hv hvr h1 h2 h3 hKi ?_ (by decide)
    intro b
    rw [hold b]
    cases b <;> simp [maskNone, outstandingMask.bit]

theorem schedule_schedOK {K : Nat → Prop} {F : List fetchTask}
    {D : List fetchedDiff} {hc : List (Nat × blockSummary)} :
    ∀ (rounds : List Nat) (acc : schedAcc), schedOK K F D acc →
      (∀ i ∈ rounds, (∃ v, alookup hc i = some v ∧ v.round = i) ∧ K i) →
      schedOK K F D (schedule hc acc rounds) := by
  intro rounds
  induction rounds with
  | nil =>
    intro acc h _
    exact h
  | cons j rest ih =>
    intro acc h hg
    simp only [schedule]
    obtain ⟨⟨v, hv, hvr⟩, hK⟩ := hg j (List.mem_cons_self j rest)
    exact ih _ (scheduleOne_schedOK h v hv hvr hK)
      (fun i hi => hg i (List.mem_cons_of_mem j hi))


theorem hcWithDummy_prop {u : Nat} {hc : List (Nat × blockSummary)} {ns clr : Nat}
    (h : ∀ p ∈ hc, p.2.round = p.1 ∨ (p.1 = u ∧ p.2.round = u + 1)) :
    ∀ p ∈ hcWithDummy u hc ns clr,
      p.2.round = p.1 ∨ (p.1 = u ∧ p.2.round = u + 1) := by
  unfold hcWithDummy
  split
  case isTrue hdum =>
    intro p hp
    rcases mem_ainsert hp with he | hm
    · subst he
      refine Or.inr ⟨hdum.2, ?_⟩
      show clr + 1 = u + 1
      rw [hdum.2]
    · exact h p hm
  case isFalse => exact h

theorem hcWithDummy_mono {u : Nat} {hc : List (Nat × blockSummary)}
    {ns clr k : Nat} (h : (alookup hc k).isSome) :
    (alookup (hcWithDummy u hc ns clr) k).isSome := by
  unfold hcWithDummy
  split
  · exact alookup_ainsert_isSome _ _ _ _ h
  · exact h

theorem hcAddBlock_prop {u : Nat} {hc : List (Nat × blockSummary)}
    {blk : blockSummary}
    (h : ∀ p ∈ hc, p.2.round = p.1 ∨ (p.1 = u ∧ p.2.round = u + 1)) :
    ∀ p ∈ hcAddBlock hc blk,
      p.2.round = p.1 ∨ (p.1 = u ∧ p.2.round = u + 1) := by
  unfold hcAddBlock
  split
  · exact h
  · intro p hp
    rcases mem_ainsert hp with he | hm
    · subst he
      exact Or.inl rfl
    · exact h p hm

theorem hcAddBlock_mono {hc : List (Nat × blockSummary)} {blk : blockSummary}
    {k : Nat} (h : (alookup hc k).isSome) :
    (alookup (hcAddBlock hc blk) k).isSome := by
  unfold hcAddBlock
  split
  · exact h
  · exact alookup_ainsert_isSome _ _ _ _ h

theorem hcAddBlock_self {hc : List (Nat × blockSummary)} {blk : blockSummary} :
    (alookup (hcAddBlock hc blk) blk.round).isSome := by
  unfold hcAddBlock
  split
  case isTrue hq => exact hq
  case isFalse hq =>
    rw [alookup_ainsert_self]
    rfl

theorem inv_newBlock {u r0 : Nat} {s s' : St} {blk : blockSummary}
    {hist : Nat → blockSummary} (hI : LoopInv u r0 s)
    (hs : step u s (Ev.newBlock blk hist) = some s') : LoopInv u r0 s' := by
  simp only [step] at hs
  split at hs
  case isFalse => exact absurd hs (by simp)
  case isTrue hguards =>
    simp only [handleNewBlock] at hs
    split at hs
    case isFalse => exact absurd hs (by simp)
    case isTrue hhist =>
      injection hs with hs
      subst hs
      have hru : u + 1 ≤ s.cachedLastRound + 1 := by
        have h1 := hI.ur
        have h2 := hI.clrLB
        omega
      have hP0 := @hcWithDummy_prop u s.hashCache blk.ns s.cachedLastRound hI.hcRound
      have hP1 : ∀ p ∈ hcFill hist (hcWithDummy u s.hashCache blk.ns s.cachedLastRound)
          (List.range' (startRoundNat u s.cachedLastRound)
            (blk.round - startRoundNat u s.cachedLastRound)),
          p.2.round = p.1 ∨ (p.1 = u ∧ p.2.round = u + 1) := by
        refine hcFill_prop hist _ _ hP0 ?_
        intro i hi
        exact Or.inl (hhist i hi)
      have hP2 := @hcAddBlock_prop u _ blk hP1
      have hmono : ∀ k, (alookup s.hashCache k).isSome →
          (alookup (hcAddBlock (hcFill hist
            (hcWithDummy u s.hashCache blk.ns s.cachedLastRound)
            (List.range' (startRoundNat u s.cachedLastRound)
              (blk.round - startRoundNat u s.cachedLastRound))) blk) k).isSome := by
        intro k hk
        exact hcAddBlock_mono (hcFill_mono hist _ _ k (hcWithDummy_mono hk))
      have hpres : ∀ i ∈ List.range' (s.cachedLastRound + 1)
          (blk.round - s.cachedLastRound),
          (alookup (hcAddBlock (hcFill hist
            (hcWithDummy u s.hashCache blk.ns s.cachedLastRound)
            (List.range' (startRoundNat u s.cachedLastRound)
              (blk.round - startRoundNat u s.cachedLastRound))) blk) i).isSome := by
        intro i hi
        rw [List.mem_range'_1] at hi
        by_cases hieq : i = blk.round
        · subst hieq
          exact hcAddBlock_self
        · have hlt : i < blk.round := by omega
          refine hcAddBlock_mono ?_
          refine hcFill_present hist _ _ i ?_
          rw [List.mem_range'_1]
          unfold startRoundNat
          by_cases hclru : s.cachedLastRound = u
          · rw [if_pos hclru]
            omega
          · rw [if_neg hclru]
            omega
      have hgood : ∀ i ∈ List.range' (s.cachedLastRound + 1)
          (blk.round - s.cachedLastRound),
          (∃ v, alookup (hcAddBlock (hcFill hist
            (hcWithDummy u s.hashCache blk.ns s.cachedLastRound)
            (List.range' (startRoundNat u s.cachedLastRound)
              (blk.round - startRoundNat u s.cachedLastRound))) blk) i = some v ∧
            v.round = i) ∧
            (s.lastFullyAppliedRound < i →
              (alookup (hcAddBlock (hcFill hist
                (hcWithDummy u s.hashCache blk.ns s.cachedLastRound)
                (List.range' (startRoundNat u s.cachedLastRound)
                  (blk.round - startRoundNat u s.cachedLastRound))) blk) i).isSome) := by
        intro i hi
        have hiS := hpres i hi
        have hib : s.cachedLastRound + 1 ≤ i := by
          rw [List.mem_range'_1] at hi
          omega
        cases hv : alookup (hcAddBlock (hcFill hist
            (hcWithDummy u s.hashCache blk.ns s.cachedLastRound)
            (List.range' (startRoundNat u s.cachedLastRound)
              (blk.round - startRoundNat u s.cachedLastRound))) blk) i with
        | none =>
          rw [hv] at hiS
          simp at hiS
        | some v =>
          refine ⟨⟨v, rfl, ?_⟩, fun _ => rfl⟩
          rcases hP2 (i, v) (alookup_mem hv) with h | ⟨hk, _⟩
          · exact h
          · exfalso
            omega
      have hsched : schedOK
          (fun k => s.lastFullyAppliedRound < k →
            (alookup (hcAddBlock (hcFill hist
              (hcWithDummy u s.hashCache blk.ns s.cachedLastRound)
              (List.range' (startRoundNat u s.cachedLastRound)
                (blk.round - startRoundNat u s.cachedLastRound))) blk) k).isSome)
          s.fetchers s.outOfOrderDiffs
          (schedule (hcAddBlock (hcFill hist
              (hcWithDummy u s.hashCache blk.ns s.cachedLastRound)
              (List.range' (startRoundNat u s.cachedLastRound)
                (blk.round - startRoundNat u s.cachedLastRound))) blk)
            ⟨s.syncingRounds, []⟩
            (List.range' (s.cachedLastRound + 1) (blk.round - s.cachedLastRound))) := by
        refine schedule_schedOK _ _ ⟨?_, ?_, ?_⟩ hgood
        · intro i
          have h1 := hI.syncOK i
          simpa [List.append_nil] using h1
        · intro t ht
          simp at ht
        · intro p hp hlt
          exact hmono p.1 (hI.hcPresent p hp hlt)
      obtain ⟨hS1, hS2, hS3⟩ := hsched
      refine ⟨hI.ur, hI.clrLB, hI.clrLfar, hP2, hI.finOne, hI.applCnt,
        hS1, ?_, hI.diffShape, hS3, hI.applyChain, hI.applyHigh, hI.applyLow,
        hI.doneTr, hI.finTr⟩
      intro t ht
      rcases List.mem_append.mp ht with h | h
      · exact hI.taskShape t h
      · exact hS2 t h

/-- The invariant is preserved by every enabled loop iteration. -/
theorem step_inv {u r0 : Nat} {s s' : St} {e : Ev} (hI : LoopInv u r0 s)
    (hs : step u s e = some s') : LoopInv u r0 s' := by
  cases e with
  | popDiff pre d post applyOk => exact inv_popDiff hI hs
  | popApplied pre b post => exact inv_popApplied hI hs
  | newBlock blk hist => exact inv_newBlock hI hs
  | diffOk pre t post fetched wl => exact inv_diffOk hI hs
  | diffErr pre t post e2 => exact inv_diffErr hI hs
  | finDone pre f post => exact inv_finDone hI hs

theorem runFrom_inv {u r0 : Nat} :
    ∀ (evs : List Ev) (s s' : St), LoopInv u r0 s →
      runFrom u s evs = some s' → LoopInv u r0 s' := by
  intro evs
  induction evs with
  | nil =>
    intro s s' hI hr
    simp only [runFrom] at hr
    injection hr with hr
    subst hr
    exact hI
  | cons e rest ih =>
    intro s s' hI hr
    simp only [runFrom] at hr
    cases hstep : step u s e with
    | none =>
      rw [hstep] at hr
      exact absurd hr (by simp)
    | some s1 =>
      rw [hstep] at hr
      exact ih s1 s' (step_inv hI hstep) hr

/-- Every reachable state of the follower loop satisfies the invariant. -/
theorem reachable_inv {u r0 : Nat} {s : St} (hur : u ≤ r0)
    (h : Reachable u r0 s) : LoopInv u r0 s := by
  obtain ⟨evs, hr⟩ := h
  exact runFrom_inv evs (initSt r0) s (inv_init u r0 hur) hr

/-! ## Helper inversions for the claim theorems -/

theorem step_popDiff_guard {u : Nat} {s s' : St} {pre post : List fetchedDiff}
    {d : fetchedDiff} {applyOk : Bool}
    (hs : step u s (Ev.popDiff pre d post applyOk) = some s') :
    d.round = s.lastFullyAppliedRound + 1 := by
  simp only [step] at hs
  split at hs
  case isFalse => exact absurd hs (by simp)
  case isTrue hcond => exact hcond.2.1

theorem step_popApplied_guard {u r0 : Nat} {s s' : St}
    {pre post : List blockSummary} {b : blockSummary} (hI : LoopInv u r0 s)
    (hs : step u s (Ev.popApplied pre b post) = some s') :
    b.round = s.cachedLastRound + 1 ∧ s.finalizers = [] := by
  simp only [step] at hs
  split at hs
  case isFalse => exact absurd hs (by simp)
  case isTrue hcond =>
    obtain ⟨hnd, hsplit, hbr, hmin⟩ := hcond
    have hb1 : 1 ≤ appliedCount s.outOfOrderApplieds (s.cachedLastRound + 1) := by
      rw [hsplit]
      unfold appliedCount
      rw [countP_middle]
      simp [hbr]
    have hfc := hI.applCnt (s.cachedLastRound + 1)
    have hcond2 : s.cachedLastRound + s.finalizers.length + 1 ≤ s.cachedLastRound + 1 := by
      by_contra hcc
      rw [if_neg (by omega)] at hfc
      omega
    exact ⟨hbr, List.length_eq_zero.mp (by omega)⟩

theorem countP_round_split (l : List fetchedDiff) (r : Nat)
    (hsh : ∀ d ∈ l, d.fetchMask = maskIO ∨ d.fetchMask = maskState) :
    l.countP (fun d => d.round == r) = diffCnt l r true + diffCnt l r false := by
  induction l with
  | nil => rfl
  | cons d rest ih =>
    unfold diffCnt at ih ⊢
    simp only [List.countP_cons]
    rw [ih (fun x hx => hsh x (List.mem_cons_of_mem d hx))]
    rcases hsh d (List.mem_cons_self d rest) with hm | hm <;>
      by_cases hr : d.round = r <;>
        simp [hm, hr, outstandingMask.bit, maskIO, maskState] <;> omega

theorem consumeDiff_ok (chunks : List Nat) :
    consumeDiff (chunks.map Except.ok) = (chunks, none) := by
  induction chunks with
  | nil => rfl
  | cons c rest ih =>
    simp only [List.map_cons, consumeDiff, ih]

/-! ## Claim theorems -/

/-- C3: every invocation of the diff fetcher delivers exactly one
`FetchedDiff` on the diff channel; if the local store has `thisRoot` it
reports `fetched = false` with an empty write log and no remote call;
otherwise, if the two root hashes are equal it reports `fetched = true`
with an empty write log and no remote call; otherwise it makes exactly one
remote `GetDiff` call and reports `fetched = true` with the in-order
chunks of the stream as write log, populating `err` (while still
delivering the result) when obtaining or consuming the stream fails. -/
theorem C3_fetchDiff_contract (env : fetchEnv) (round : Nat)
    (prevRoot thisRoot : Root) (mask : outstandingMask) :
    (fetchDiff env round prevRoot thisRoot mask).sent.length = 1 ∧
    (∀ res ∈ (fetchDiff env round prevRoot thisRoot mask).sent,
      res.round = round ∧ res.prevRoot = prevRoot ∧ res.thisRoot = thisRoot ∧
        res.fetchMask = mask ∧
      (env.hasRoot thisRoot = true →
        res.fetched = false ∧ res.writeLog = [] ∧ res.err = none ∧
          (fetchDiff env round prevRoot thisRoot mask).remoteCalls = 0) ∧
      (env.hasRoot thisRoot = false → thisRoot.hash = prevRoot.hash →
        res.fetched = true ∧ res.writeLog = [] ∧ res.err = none ∧
          (fetchDiff env round prevRoot thisRoot mask).remoteCalls = 0) ∧
      (env.hasRoot thisRoot = false → thisRoot.hash ≠ prevRoot.hash →
        res.fetched = true ∧
          (fetchDiff env round prevRoot thisRoot mask).remoteCalls = 1 ∧
          (∀ e, env.getDiff prevRoot thisRoot = Except.error e →
            res.err = some e ∧ res.writeLog = []) ∧
          (∀ steps, env.getDiff prevRoot thisRoot = Except.ok steps →
            res.writeLog = (consumeDiff steps).1 ∧ res.err = (consumeDiff steps).2) ∧
          (∀ chunks, env.getDiff prevRoot thisRoot =
              Except.ok (chunks.map Except.ok) →
            res.writeLog = chunks ∧ res.err = none))) := by
  unfold fetchDiff
  by_cases hhas : env.hasRoot thisRoot = true
  · rw [if_pos hhas]
    refine ⟨rfl, ?_⟩
    intro res hres
    simp only [List.mem_singleton] at hres
    subst hres
    refine ⟨rfl, rfl, rfl, rfl, fun _ => ⟨rfl, rfl, rfl, rfl⟩, ?_, ?_⟩
    · intro hq
      rw [hhas] at hq
      cases hq
    · intro hq
      rw [hhas] at hq
      cases hq
  · have hhas' : env.hasRoot thisRoot = false := by
      cases hq : env.hasRoot thisRoot
      · rfl
      · exact absurd hq hhas
    rw [if_neg hhas]
    by_cases heq : thisRoot.hash = prevRoot.hash
    · rw [if_pos heq]
      refine ⟨rfl, ?_⟩
      intro res hres
      simp only [List.mem_singleton] at hres
      subst hres
      refine ⟨rfl, rfl, rfl, rfl, ?_, fun _ _ => ⟨rfl, rfl, rfl, rfl⟩, ?_⟩
      · intro hq
        rw [hhas'] at hq
        cases hq
      · intro _ hq
        exact absurd heq hq
    · rw [if_neg heq]
      cases hgd : env.getDiff prevRoot thisRoot with
      | error e =>
        refine ⟨rfl, ?_⟩
        intro res hres
        simp only [List.mem_singleton] at hres
        subst hres
        refine ⟨rfl, rfl, rfl, rfl, ?_, ?_, ?_⟩
        · intro hq
          rw [hhas'] at hq
          cases hq
        · intro _ hq
          exact absurd hq heq
        · intro _ _
          refine ⟨rfl, rfl, ?_, ?_, ?_⟩
          · intro e2 he2
            injection he2 with he2
            subst he2
            exact ⟨rfl, rfl⟩
          · intro steps hsteps
            simp at hsteps
          · intro chunks hchunks
            simp at hchunks
      | ok steps =>
        refine ⟨rfl, ?_⟩
        intro res hres
        simp only [List.mem_singleton] at hres
        subst hres
        refine ⟨rfl, rfl, rfl, rfl, ?_, ?_, ?_⟩
        · intro hq
          rw [hhas'] at hq
          cases hq
        · intro _ hq
          exact absurd hq heq
        · intro _ _
          refine ⟨rfl, rfl, ?_, ?_, ?_⟩
          · intro e2 he2
            simp at he2
          · intro steps2 hsteps
            injection hsteps with hsteps
            subst hsteps
            exact ⟨rfl, rfl⟩
          · intro chunks hchunks
            injection hchunks with hchunks
            subst hchunks
            rw [consumeDiff_ok]
            exact ⟨rfl, rfl⟩

/-- C5: when handling a new block, the historical-summary catch-up loop
starts at `cachedLastRound`, except when that value is the undefined-round
sentinel, in which case it starts one later (`uint64` increment); hence
the sentinel itself never begins a catch-up iteration, and no iterate of
the loop wraps around the `uint64` round range. -/
theorem C5_catchup_start (undefRound clr blkRound : Nat)
    (hu : undefRound < U64) (hb : blkRound < U64) :
    (clr ≠ undefRound → startSummaryRound undefRound clr = clr) ∧
    (clr = undefRound → startSummaryRound undefRound clr = (clr + 1) % U64) ∧
    startSummaryRound undefRound clr ≠ undefRound ∧
    (∀ i ∈ catchUpRounds (startSummaryRound undefRound clr) blkRound,
      startSummaryRound undefRound clr ≤ i ∧ i < blkRound ∧ i < U64) := by
  unfold startSummaryRound
  refine ⟨?_, ?_, ?_, ?_⟩
  · intro h
    rw [if_neg h]
  · intro h
    rw [if_pos h]
  · by_cases h : clr = undefRound
    · rw [if_pos h]
      subst h
      unfold U64 at hu ⊢
      omega
    · rw [if_neg h]
      exact h
  · intro i hi
    unfold catchUpRounds at hi
    rw [List.mem_range'_1] at hi
    refine ⟨by omega, by omega, by omega⟩

/-- C10: at worker startup, a persisted last-synced round equal to the
all-ones default, or strictly below the runtime's genesis round, makes the
worker treat the runtime as never synced: the working sentinel and the
initial `cachedLastRound` are `genesisRound - 1` in `uint64` arithmetic
(not necessarily all-ones), and syncing resumes from the genesis round
(the first scheduled round, `cachedLastRound + 1`, is the genesis
round). -/
theorem C10_startup_clamp (persisted genesisRound : Nat)
    (hg : genesisRound < U64)
    (hp : persisted = defaultUndefinedRound ∨ persisted < genesisRound) :
    initCachedLastRound persisted genesisRound = initUndefinedRound genesisRound ∧
    initUndefinedRound genesisRound = (genesisRound + U64 - 1) % U64 ∧
    (initCachedLastRound persisted genesisRound + 1) % U64 = genesisRound ∧
    (0 < genesisRound →
      initCachedLastRound persisted genesisRound = genesisRound - 1) := by
  unfold initCachedLastRound
  rw [if_pos hp]
  refine ⟨rfl, rfl, ?_, ?_⟩
  · unfold initUndefinedRound
    unfold U64 at hg ⊢
    by_cases h0 : genesisRound = 0
    · subst h0
      norm_num
    · have h1 : (genesisRound + 2 ^ 64 - 1) % 2 ^ 64 = genesisRound - 1 := by
        omega
      rw [h1]
      omega
  · intro h0
    unfold initUndefinedRound
    unfold U64 at hg ⊢
    omega

/-- A roothash environment whose latest block is at round 5. -/
def env8 : roothashEnv :=
  { getLatestBlock := Except.ok
      { ns := 7, round := 5, ioRoot := ⟨7, 5, 11⟩, stateRoot := ⟨7, 5, 22⟩ },
    getBlock := fun r => Except.ok
      { ns := 7, round := r, ioRoot := ⟨7, r, 11⟩, stateRoot := ⟨7, r, 22⟩ } }

/-- C8 counterexample: `ForceFinalize` does not always invoke the local
finalize with the looked-up block's round.  When called with
`RoundLatest`, the code passes the `RoundLatest` argument itself to
`localStorage.Finalize`, not the round of the latest block it looked
up. -/
theorem C8_cex : ¬ (∀ (env : roothashEnv) (round : Nat) (blk : blockSummary),
    (if round = RoundLatest then env.getLatestBlock else env.getBlock round) =
      Except.ok blk →
    ∃ c, ForceFinalize env round = Except.ok c ∧ c.round = blk.round) := by
  intro h
  obtain ⟨c, hc, hr⟩ := h env8 RoundLatest
    { ns := 7, round := 5, ioRoot := ⟨7, 5, 11⟩, stateRoot := ⟨7, 5, 22⟩ }
    (by rw [if_pos rfl]; rfl)
  have hceq : c = { ns := 7, round := RoundLatest, roots := [11, 22] } := by
    have : ForceFinalize env8 RoundLatest =
        Except.ok { ns := 7, round := RoundLatest, roots := [11, 22] } := rfl
    rw [this] at hc
    injection hc with hc2
    exact hc2.symm
  rw [hceq] at hr
  simp only at hr
  unfold RoundLatest U64 at hr
  omega

/-- C8 amended: `ForceFinalize(runtimeID, round)` looks up the latest
block when `round = RoundLatest` and the block at `round` otherwise; a
lookup error is returned unchanged with no `Finalize` call; otherwise
`localStorage.Finalize` is invoked exactly once, with the *argument*
round (which for `round ≠ RoundLatest` is the round whose block was
looked up) and the looked-up block's IO-root and state-root hashes, and
its outcome is returned. -/
theorem C8_forceFinalize (env : roothashEnv) (round : Nat) :
    (∀ e, (if round = RoundLatest then env.getLatestBlock
        else env.getBlock round) = Except.error e →
      ForceFinalize env round = Except.error e) ∧
    (∀ blk, (if round = RoundLatest then env.getLatestBlock
        else env.getBlock round) = Except.ok blk →
      ForceFinalize env round = Except.ok
        { ns := blk.ns, round := round,
          roots := [blk.ioRoot.hash, blk.stateRoot.hash] }) ∧
    (round ≠ RoundLatest →
      (if round = RoundLatest then env.getLatestBlock
        else env.getBlock round) = env.getBlock round) := by
  refine ⟨?_, ?_, ?_⟩
  · intro e he
    unfold ForceFinalize
    rw [he]
  · intro blk hblk
    unfold ForceFinalize
    rw [hblk]
  · intro hne
    rw [if_neg hne]

/-! ## Concrete runs used as counterexamples and witnesses -/

/-- A first block at round 1. -/
def blkW1 : blockSummary :=
  { ns := 1, round := 1, ioRoot := ⟨1, 1, 10⟩, stateRoot := ⟨1, 1, 20⟩ }

/-- A first block at round 2. -/
def blkW2 : blockSummary :=
  { ns := 1, round := 2, ioRoot := ⟨1, 2, 10⟩, stateRoot := ⟨1, 2, 20⟩ }

/-- Historical-block summaries served by the roothash backend. -/
def histW : Nat → blockSummary := fun i =>
  { ns := 1, round := i, ioRoot := ⟨1, i, 30 + i⟩, stateRoot := ⟨1, i, 40 + i⟩ }

def tIO1 : fetchTask :=
  { round := 1, prevRoot := ⟨1, 1, 0⟩, thisRoot := ⟨1, 1, 10⟩, mask := maskIO }
def tST1 : fetchTask :=
  { round := 1, prevRoot := ⟨0, 1, 0⟩, thisRoot := ⟨1, 1, 20⟩, mask := maskState }
def dIO1 : fetchedDiff :=
  { fetchMask := maskIO, fetched := true, err := none, round := 1,
    prevRoot := ⟨1, 1, 0⟩, thisRoot := ⟨1, 1, 10⟩, writeLog := [] }
def dST1 : fetchedDiff :=
  { fetchMask := maskState, fetched := true, err := none, round := 1,
    prevRoot := ⟨0, 1, 0⟩, thisRoot := ⟨1, 1, 20⟩, writeLog := [] }

/-- A full pass for round 1: fetch both subtrees, apply both, finalize. -/
def runEvs7 : List Ev := [
  Ev.newBlock blkW1 histW,
  Ev.diffOk [] tIO1 [tST1] true [],
  Ev.popDiff [] dIO1 [] true,
  Ev.diffOk [] tST1 [] true [],
  Ev.popDiff [] dST1 [] true,
  Ev.popApplied [] blkW1 [],
  Ev.finDone [] blkW1 [] ]

def wSt7 : St := (runFrom 0 (initSt 0) runEvs7).getD (initSt 0)
def wSt1 : St := (runFrom 0 (initSt 0) (runEvs7.take 1)).getD (initSt 0)
def wSt2 : St := (runFrom 0 (initSt 0) (runEvs7.take 2)).getD (initSt 0)
def wSt5 : St := (runFrom 0 (initSt 0) (runEvs7.take 5)).getD (initSt 0)

def u1io : fetchTask :=
  { round := 1, prevRoot := ⟨1, 1, 0⟩, thisRoot := ⟨1, 1, 31⟩, mask := maskIO }
def u1st : fetchTask :=
  { round := 1, prevRoot := ⟨0, 1, 0⟩, thisRoot := ⟨1, 1, 41⟩, mask := maskState }
def u2io : fetchTask :=
  { round := 2, prevRoot := ⟨1, 2, 0⟩, thisRoot := ⟨1, 2, 10⟩, mask := maskIO }
def u2st : fetchTask :=
  { round := 2, prevRoot := ⟨1, 1, 41⟩, thisRoot := ⟨1, 2, 20⟩, mask := maskState }

/-- Round-2 diffs arrive while round 1 is still being fetched: both land
in the diffs queue together. -/
def runEvsC7 : List Ev := [
  Ev.newBlock blkW2 histW,
  Ev.diffOk [u1io, u1st] u2io [u2st] true [],
  Ev.diffOk [u1io, u1st] u2st [] true [] ]

def wStC7 : St := (runFrom 0 (initSt 0) runEvsC7).getD (initSt 0)

/-- C1 counterexample: the trace of `Apply` calls is not strictly
increasing by round — a round whose IO and state diffs were both fetched
receives two `Apply` calls at the same round, as in the reachable state
where the apply trace is `[1, 1]`. -/
theorem C1_cex : ¬ (∀ s : St, Reachable 0 0 s →
    List.Chain' (· < ·) (applyRounds s.trace)) := by
  intro h
  have hre : Reachable 0 0 wSt5 := ⟨runEvs7.take 5, rfl⟩
  have hch := h wSt5 hre
  have hap : applyRounds wSt5.trace = [1, 1] := rfl
  rw [hap] at hch
  have := List.chain'_cons.mp hch
  omega

/-- C1 amended: a `FetchedDiff` is popped from the diffs queue only when
its round equals `lastFullyAppliedRound + 1`; `Apply` calls occur in
non-decreasing round order (every apply for round `k` happens before
every apply for round `k+1`, though a round may receive up to two applies,
one per subtree, and a round whose roots were already present receives
none); and rounds complete their applies in strictly increasing order
with no gaps: the fully-applied rounds are exactly
`r0+1, r0+2, ..., lastFullyAppliedRound`, in that order. -/
theorem C1_apply_order (u r0 : Nat) (s : St) (hur : u ≤ r0)
    (h : Reachable u r0 s) :
    List.Chain' (· ≤ ·) (applyRounds s.trace) ∧
    roundDones s.trace =
      List.range' (r0 + 1) (s.lastFullyAppliedRound - r0) ∧
    (∀ pre d post applyOk s',
      step u s (Ev.popDiff pre d post applyOk) = some s' →
      d.round = s.lastFullyAppliedRound + 1) := by
  have hI := reachable_inv hur h
  exact ⟨hI.applyChain, hI.doneTr,
    fun pre d post applyOk s' hs => step_popDiff_guard hs⟩

/-- C2: at most one finalize task is ever in flight; a summary is popped
from the applieds queue and a finalizer spawned only when its round is
`cachedLastRound + 1` and no finalizer is running; `cachedLastRound`
advances exactly on receipt of a completion; and the finalize history is
the strictly serialized sequence spawn/complete for rounds
`r0+1 ... cachedLastRound` (plus a trailing spawn when one is in flight),
so `finalize(k)` completes before `finalize(k+1)` begins. -/
theorem C2_serialized_finalize (u r0 : Nat) (s : St) (hur : u ≤ r0)
    (h : Reachable u r0 s) :
    s.finalizers.length ≤ 1 ∧
    finEvents s.trace = finSeq r0 s.cachedLastRound ++
      (if s.finalizers.isEmpty then [] else
        [TEv.finSpawn (s.cachedLastRound + 1)]) ∧
    (∀ pre b post s', step u s (Ev.popApplied pre b post) = some s' →
      b.round = s.cachedLastRound + 1 ∧ s.finalizers = []) ∧
    (∀ pre f post s', step u s (Ev.finDone pre f post) = some s' →
      s'.cachedLastRound = f.round) := by
  have hI := reachable_inv hur h
  refine ⟨?_, hI.finTr, fun pre b post s' hs => step_popApplied_guard hI hs, ?_⟩
  · rcases hI.finOne with hfe | ⟨f, hf0, _, _⟩
    · rw [hfe]
      simp
    · rw [hf0]
      simp
  · intro pre f post s' hs
    simp only [step] at hs
    split at hs
    case isFalse => exact absurd hs (by simp)
    case isTrue =>
      injection hs with hs
      subst hs
      rfl

/-- C4: when a `FetchedDiff` is popped for round `r = lastFullyAppliedRound+1`,
`Apply` is invoked exactly once for it iff it was fetched, and the outcome
of the apply (`applyOk`, the error case included) does not affect
progress: the diff's mask is always cleared from `outstanding` while
`awaitingRetry` is untouched (no retry), and when both masks become empty
the `syncingRounds` entry for `r` is deleted, `hashCache[r-1]` is
dropped, `lastFullyAppliedRound` becomes `r`, and `r`'s summary is pushed
onto the applieds queue. -/
theorem C4_apply_error_progress (u r0 : Nat) (s s' : St)
    (pre post : List fetchedDiff) (d : fetchedDiff) (applyOk : Bool)
    (fl : inFlight) (hur : u ≤ r0) (hre : Reachable u r0 s)
    (hs : step u s (Ev.popDiff pre d post applyOk) = some s')
    (hfl : alookup s.syncingRounds d.round = some fl) :
    d.round = s.lastFullyAppliedRound + 1 ∧
    (d.fetched = true →
      applyRounds s'.trace = applyRounds s.trace ++ [d.round]) ∧
    (d.fetched = false → applyRounds s'.trace = applyRounds s.trace) ∧
    ((fl.outstanding.andNot d.fetchMask = maskNone ∧
        fl.awaitingRetry = maskNone) →
      alookup s'.syncingRounds d.round = none ∧
      alookup s'.hashCache (d.round - 1) = none ∧
      s'.lastFullyAppliedRound = d.round ∧
      appliedCount s'.outOfOrderApplieds d.round =
        appliedCount s.outOfOrderApplieds d.round + 1) ∧
    (¬ (fl.outstanding.andNot d.fetchMask = maskNone ∧
        fl.awaitingRetry = maskNone) →
      alookup s'.syncingRounds d.round =
        some ⟨fl.outstanding.andNot d.fetchMask, fl.awaitingRetry⟩ ∧
      s'.lastFullyAppliedRound = s.lastFullyAppliedRound ∧
      s'.outOfOrderApplieds = s.outOfOrderApplieds) := by
  have hI := reachable_inv hur hre
  have hguard := step_popDiff_guard hs
  simp only [step] at hs
  split at hs
  case isFalse => exact absurd hs (by simp)
  case isTrue hcond =>
    rw [hfl] at hs
    dsimp only at hs
    refine ⟨hguard, ?_⟩
    split at hs
    case isTrue hdone =>
      cases hhc : alookup s.hashCache d.round with
      | none =>
        rw [hhc] at hs
        exact absurd hs (by simp)
      | some summary =>
        rw [hhc] at hs
        injection hs with hs
        subst hs
        have hsr : summary.round = d.round := by
          rcases hI.hcRound (d.round, summary) (alookup_mem hhc) with hq | ⟨hk, _⟩
          · exact hq
          · exfalso
            have h1 := hI.ur
            have h2 := hI.clrLB
            have h3 := hI.clrLfar
            omega
        refine ⟨?_, ?_, fun hd => ?_, fun hd => absurd hdone hd⟩
        · intro hf
          show applyRounds (s.trace ++ _ ++ [TEv.roundDone d.round]) = _
          rw [applyRounds_append, applyRounds_append, if_pos hf]
          simp [applyRounds]
        · intro hf
          show applyRounds (s.trace ++ _ ++ [TEv.roundDone d.round]) = _
          rw [applyRounds_append, applyRounds_append, if_neg (by simp [hf])]
          simp [applyRounds]
        · refine ⟨alookup_aerase_self _ _, alookup_aerase_self _ _, rfl, ?_⟩
          show appliedCount (s.outOfOrderApplieds ++ [summary]) d.round = _
          unfold appliedCount
          rw [List.countP_append]
          simp [hsr]
    case isFalse hndone =>
      injection hs with hs
      subst hs
      refine ⟨?_, ?_, fun hd => absurd hd hndone, fun _ => ?_⟩
      · intro hf
        show applyRounds (s.trace ++ _) = _
        rw [applyRounds_append, if_pos hf]
        simp [applyRounds]
      · intro hf
        show applyRounds (s.trace ++ _) = _
        rw [applyRounds_append, if_neg (by simp [hf])]
        simp [applyRounds]
      · exact ⟨alookup_ainsert_self _ _ _, rfl, rfl⟩

/-- C6: delivering a new block whose round has already been fully
processed (its finalize has completed, i.e. `blk.round ≤ cachedLastRound`)
changes nothing but possibly the hash cache: no fetch is scheduled, both
queues, the round trackers, the in-flight task sets and the whole
apply/finalize call trace are exactly as before, so the total number of
`Apply` and `Finalize` calls is the same as after the first delivery. -/
theorem C6_redeliver_idempotent (u : Nat) (s s' : St) (blk : blockSummary)
    (hist : Nat → blockSummary) (hclr : blk.round ≤ s.cachedLastRound)
    (hs : step u s (Ev.newBlock blk hist) = some s') :
    s'.trace = s.trace ∧
    applyRounds s'.trace = applyRounds s.trace ∧
    finEvents s'.trace = finEvents s.trace ∧
    s'.outOfOrderDiffs = s.outOfOrderDiffs ∧
    s'.outOfOrderApplieds = s.outOfOrderApplieds ∧
    s'.syncingRounds = s.syncingRounds ∧
    s'.fetchers = s.fetchers ∧
    s'.finalizers = s.finalizers ∧
    s'.cachedLastRound = s.cachedLastRound ∧
    s'.lastFullyAppliedRound = s.lastFullyAppliedRound := by
  simp only [step] at hs
  split at hs
  case isFalse => exact absurd hs (by simp)
  case isTrue =>
    simp only [handleNewBlock] at hs
    split at hs
    case isFalse => exact absurd hs (by simp)
    case isTrue =>
      injection hs with hs
      subst hs
      have h0 : blk.round - s.cachedLastRound = 0 := by omega
      have hrange : List.range' (s.cachedLastRound + 1)
          (blk.round - s.cachedLastRound) = [] := by
        rw [h0]
        rfl
      rw [hrange]
      exact ⟨rfl, rfl, rfl, rfl, rfl, rfl, List.append_nil s.fetchers, rfl, rfl, rfl⟩

/-- C7 counterexample: the diffs queue can hold two entries for the same
round — the IO and the state diff of a round that is still waiting for an
earlier round to finish applying — so "at most one entry per round" fails
for the diffs queue. -/
theorem C7_cex : ¬ (∀ s : St, Reachable 0 0 s →
    ∀ r, s.outOfOrderDiffs.countP (fun d => d.round == r) ≤ 1) := by
  intro h
  have hre : Reachable 0 0 wStC7 := ⟨runEvsC7, rfl⟩
  have h2 := h wStC7 hre 2
  have hc : wStC7.outOfOrderDiffs.countP (fun d => d.round == 2) = 2 := rfl
  omega

/-- C7 amended: in every reachable state the applieds queue has at most
one entry per round, and the diffs queue has at most one entry per
(round, subtree) pair — hence at most two entries per round (one IO and
one state diff). -/
theorem C7_queue_multiplicity (u r0 : Nat) (s : St) (hur : u ≤ r0)
    (h : Reachable u r0 s) :
    (∀ r, appliedCount s.outOfOrderApplieds r ≤ 1) ∧
    (∀ r b, diffCnt s.outOfOrderDiffs r b ≤ 1) ∧
    (∀ r, s.outOfOrderDiffs.countP (fun d => d.round == r) ≤ 2) := by
  have hI := reachable_inv hur h
  have hd : ∀ r b, diffCnt s.outOfOrderDiffs r b ≤ 1 := by
    intro r b
    have hsync := hI.syncOK r
    unfold syncAt at hsync
    cases halo : alookup s.syncingRounds r with
    | none =>
      rw [halo] at hsync
      have := hsync b
      unfold carrierCnt at this
      omega
    | some fl =>
      rw [halo] at hsync
      have := hsync.1 b
      unfold carrierCnt at this
      by_cases hob : fl.outstanding.bit b = true <;> simp [hob] at this <;> omega
  refine ⟨?_, hd, ?_⟩
  · intro r
    have := hI.applCnt r
    rw [this]
    split <;> omega
  · intro r
    rw [countP_round_split _ _ hI.diffShape]
    have h1 := hd r true
    have h2 := hd r false
    omega

/-- C9: in every reachable state, every `syncingRounds` entry has disjoint
`outstanding` and `awaitingRetry` masks — no subtree bit is ever set in
both. -/
theorem C9_masks_disjoint (u r0 : Nat) (s : St) (hur : u ≤ r0)
    (h : Reachable u r0 s) :
    ∀ i fl, alookup s.syncingRounds i = some fl →
      fl.outstanding.inter fl.awaitingRetry = maskNone := by
  have hI := reachable_inv hur h
  intro i fl hfl
  have hsync := hI.syncOK i
  unfold syncAt at hsync
  rw [hfl] at hsync
  exact hsync.2

/-! ## Witnesses: the claim theorems applied at concrete reachable inputs -/

def wSt3 : St := (runFrom 0 (initSt 0) (runEvs7.take 3)).getD (initSt 0)
def wSt8 : St := (step 0 wSt7 (Ev.newBlock blkW1 histW)).getD (initSt 0)

def envW3 : fetchEnv :=
  { hasRoot := fun _ => false,
    getDiff := fun _ _ => Except.ok [Except.ok 3, Except.ok 4] }

theorem C1_witness :
    List.Chain' (· ≤ ·) (applyRounds wSt5.trace) ∧
    roundDones wSt5.trace =
      List.range' (0 + 1) (wSt5.lastFullyAppliedRound - 0) ∧
    (∀ pre d post applyOk s',
      step 0 wSt5 (Ev.popDiff pre d post applyOk) = some s' →
      d.round = wSt5.lastFullyAppliedRound + 1) :=
  C1_apply_order 0 0 wSt5 (by decide) ⟨runEvs7.take 5, rfl⟩

theorem C2_witness :
    wSt7.finalizers.length ≤ 1 ∧
    finEvents wSt7.trace = finSeq 0 wSt7.cachedLastRound ++
      (if wSt7.finalizers.isEmpty then [] else
        [TEv.finSpawn (wSt7.cachedLastRound + 1)]) ∧
    (∀ pre b post s', step 0 wSt7 (Ev.popApplied pre b post) = some s' →
      b.round = wSt7.cachedLastRound + 1 ∧ wSt7.finalizers = []) ∧
    (∀ pre f post s', step 0 wSt7 (Ev.finDone pre f post) = some s' →
      s'.cachedLastRound = f.round) :=
  C2_serialized_finalize 0 0 wSt7 (by decide) ⟨runEvs7, rfl⟩

theorem C3_witness :
    (fetchDiff envW3 1 ⟨1, 1, 0⟩ ⟨1, 1, 9⟩ maskIO).sent.length = 1 ∧
    (∀ res ∈ (fetchDiff envW3 1 ⟨1, 1, 0⟩ ⟨1, 1, 9⟩ maskIO).sent,
      res.round = 1 ∧ res.prevRoot = ⟨1, 1, 0⟩ ∧ res.thisRoot = ⟨1, 1, 9⟩ ∧
        res.fetchMask = maskIO ∧
      (envW3.hasRoot ⟨1, 1, 9⟩ = true →
        res.fetched = false ∧ res.writeLog = [] ∧ res.err = none ∧
          (fetchDiff envW3 1 ⟨1, 1, 0⟩ ⟨1, 1, 9⟩ maskIO).remoteCalls = 0) ∧
      (envW3.hasRoot ⟨1, 1, 9⟩ = false →
          (⟨1, 1, 9⟩ : Root).hash = (⟨1, 1, 0⟩ : Root).hash →
        res.fetched = true ∧ res.writeLog = [] ∧ res.err = none ∧
          (fetchDiff envW3 1 ⟨1, 1, 0⟩ ⟨1, 1, 9⟩ maskIO).remoteCalls = 0) ∧
      (envW3.hasRoot ⟨1, 1, 9⟩ = false →
          (⟨1, 1, 9⟩ : Root).hash ≠ (⟨1, 1, 0⟩ : Root).hash →
        res.fetched = true ∧
          (fetchDiff envW3 1 ⟨1, 1, 0⟩ ⟨1, 1, 9⟩ maskIO).remoteCalls = 1 ∧
          (∀ e, envW3.getDiff ⟨1, 1, 0⟩ ⟨1, 1, 9⟩ = Except.error e →
            res.err = some e ∧ res.writeLog = []) ∧
          (∀ steps, envW3.getDiff ⟨1, 1, 0⟩ ⟨1, 1, 9⟩ = Except.ok steps →
            res.writeLog = (consumeDiff steps).1 ∧
              res.err = (consumeDiff steps).2) ∧
          (∀ chunks, envW3.getDiff ⟨1, 1, 0⟩ ⟨1, 1, 9⟩ =
              Except.ok (chunks.map Except.ok) →
            res.writeLog = chunks ∧ res.err = none))) :=
  C3_fetchDiff_contract envW3 1 ⟨1, 1, 0⟩ ⟨1, 1, 9⟩ maskIO

theorem C4_witness :
    dIO1.round = wSt2.lastFullyAppliedRound + 1 ∧
    (dIO1.fetched = true →
      applyRounds wSt3.trace = applyRounds wSt2.trace ++ [dIO1.round]) ∧
    (dIO1.fetched = false → applyRounds wSt3.trace = applyRounds wSt2.trace) ∧
    ((inFlight.outstanding ⟨maskAll, maskNone⟩).andNot dIO1.fetchMask = maskNone ∧
        (inFlight.awaitingRetry ⟨maskAll, maskNone⟩) = maskNone →
      alookup wSt3.syncingRounds dIO1.round = none ∧
      alookup wSt3.hashCache (dIO1.round - 1) = none ∧
      wSt3.lastFullyAppliedRound = dIO1.round ∧
      appliedCount wSt3.outOfOrderApplieds dIO1.round =
        appliedCount wSt2.outOfOrderApplieds dIO1.round + 1) ∧
    (¬ ((inFlight.outstanding ⟨maskAll, maskNone⟩).andNot dIO1.fetchMask = maskNone ∧
        (inFlight.awaitingRetry ⟨maskAll, maskNone⟩) = maskNone) →
      alookup wSt3.syncingRounds dIO1.round =
        some ⟨(inFlight.outstanding ⟨maskAll, maskNone⟩).andNot dIO1.fetchMask,
          inFlight.awaitingRetry ⟨maskAll, maskNone⟩⟩ ∧
      wSt3.lastFullyAppliedRound = wSt2.lastFullyAppliedRound ∧
      wSt3.outOfOrderApplieds = wSt2.outOfOrderApplieds) :=
  C4_apply_error_progress 0 0 wSt2 wSt3 [] [] dIO1 true ⟨maskAll, maskNone⟩
    (by decide) ⟨runEvs7.take 2, rfl⟩ rfl rfl

theorem C5_witness :
    ((U64 - 1 : Nat) ≠ U64 - 1 →
      startSummaryRound (U64 - 1) (U64 - 1) = U64 - 1) ∧
    ((U64 - 1 : Nat) = U64 - 1 →
      startSummaryRound (U64 - 1) (U64 - 1) = ((U64 - 1) + 1) % U64) ∧
    startSummaryRound (U64 - 1) (U64 - 1) ≠ U64 - 1 ∧
    (∀ i ∈ catchUpRounds (startSummaryRound (U64 - 1) (U64 - 1)) 3,
      startSummaryRound (U64 - 1) (U64 - 1) ≤ i ∧ i < 3 ∧ i < U64) :=
  C5_catchup_start (U64 - 1) (U64 - 1) 3 (by unfold U64; omega) (by unfold U64; omega)

theorem C6_witness :
    wSt8.trace = wSt7.trace ∧
    applyRounds wSt8.trace = applyRounds wSt7.trace ∧
    finEvents wSt8.trace = finEvents wSt7.trace ∧
    wSt8.outOfOrderDiffs = wSt7.outOfOrderDiffs ∧
    wSt8.outOfOrderApplieds = wSt7.outOfOrderApplieds ∧
    wSt8.syncingRounds = wSt7.syncingRounds ∧
    wSt8.fetchers = wSt7.fetchers ∧
    wSt8.finalizers = wSt7.finalizers ∧
    wSt8.cachedLastRound = wSt7.cachedLastRound ∧
    wSt8.lastFullyAppliedRound = wSt7.lastFullyAppliedRound :=
  C6_redeliver_idempotent 0 wSt7 wSt8 blkW1 histW (by decide) rfl

theorem C7_witness :
    (∀ r, appliedCount wStC7.outOfOrderApplieds r ≤ 1) ∧
    (∀ r b, diffCnt wStC7.outOfOrderDiffs r b ≤ 1) ∧
    (∀ r, wStC7.outOfOrderDiffs.countP (fun d => d.round == r) ≤ 2) :=
  C7_queue_multiplicity 0 0 wStC7 (by decide) ⟨runEvsC7, rfl⟩

theorem C8_witness :
    (∀ e, (if 5 = RoundLatest then env8.getLatestBlock
        else env8.getBlock 5) = Except.error e →
      ForceFinalize env8 5 = Except.error e) ∧
    (∀ blk, (if 5 = RoundLatest then env8.getLatestBlock
        else env8.getBlock 5) = Except.ok blk →
      ForceFinalize env8 5 = Except.ok
        { ns := blk.ns, round := 5,
          roots := [blk.ioRoot.hash, blk.stateRoot.hash] }) ∧
    ((5 : Nat) ≠ RoundLatest →
      (if 5 = RoundLatest then env8.getLatestBlock
        else env8.getBlock 5) = env8.getBlock 5) :=
  C8_forceFinalize env8 5

theorem C9_witness :
    maskAll.inter maskNone = maskNone :=
  C9_masks_disjoint 0 0 wSt1 (by decide) ⟨runEvs7.take 1, rfl⟩ 1
    ⟨maskAll, maskNone⟩ rfl

theorem C10_witness :
    initCachedLastRound (U64 - 1) 5 = initUndefinedRound 5 ∧
    initUndefinedRound 5 = (5 + U64 - 1) % U64 ∧
    (initCachedLastRound (U64 - 1) 5 + 1) % U64 = 5 ∧
    (0 < 5 → initCachedLastRound (U64 - 1) 5 = 5 - 1) :=
  C10_startup_clamp (U64 - 1) 5 (by unfold U64; omega) (Or.inl rfl)
